import Mathlib

/-!
Marker-based source injection of cobra-cli.

A shallow embedding of `cmd/project.go` and `tpl/main.go`.

Modelling conventions.
* Text (Go `string` and `[]byte`) is a list of runes, a rune being its code point as a
  natural number.  Files and names are taken to be valid UTF-8, on which searching for an
  ASCII byte string and searching for the same rune string agree.
* `bytes.Replace(s, old, new, 1)` is `Replace1`, built on `Index` as in the Go library.
* `strings.Title` is `Title`; the Unicode tables it consults for runes above `0x7F` are a
  parameter (`UnicodeTables`), its ASCII fast paths are embedded literally.  Where a result
  depends on the tables, it assumes `TitleSound`: title case never maps a rune above `0x7F`
  into ASCII other than to an upper-case letter.
* The three built-in templates are executed by hand (`renderMain`, `renderRoot`,
  `renderSub`); on a `Project` or `Command` they cannot fail.  The license text is any
  template, so the engine that parses and executes it is a parameter.
* The file system is a map from paths (lists of segments) to nodes, without links and
  without permissions; a directory is given by its clean, rooted path, and `filepath.Join`
  splits the names it joins at their slashes and cleans `.` and `..` away.
* A call ends in an `Outcome`: it returns `nil` or an error, `cobra.CheckErr` ends the
  process, or `template.Must` panics; the file system it leaves is part of the result.
-/

set_option autoImplicit false
set_option maxRecDepth 100000

namespace CobraCli

/-! ## Text -/

/-- Text is a sequence of runes, each given by its code point. -/
abbrev Text := List Nat

/-- The text of a string literal. -/
def lit (s : String) : Text := s.toList.map Char.toNat

/-- Go `bytes.Index(s, sep)`: the position of the first occurrence of `sep` in `s`,
`none` standing for `-1`. -/
def Index : Text → Text → Option Nat
  | [], sep => if sep = [] then some 0 else none
  | c :: s, sep => if sep.isPrefixOf (c :: s) then some 0 else (Index s sep).map (· + 1)

/-- Go `bytes.Replace(s, old, new, 1)`: a copy of `s` with the first occurrence of `old`
replaced by `new`; a plain copy when `old` does not occur. -/
def Replace1 (s old new : Text) : Text :=
  match Index s old with
  | none => s
  | some j => s.take j ++ new ++ s.drop (j + old.length)

/-- The number of positions of `s` at which `m` occurs. -/
def occurrences (m : Text) : Text → Nat
  | [] => if m = [] then 1 else 0
  | c :: s => (if m.isPrefixOf (c :: s) then 1 else 0) + occurrences m s

/-- An occurrence of `m` in `A ++ B` that begins in `A` and ends in `B`. -/
def Straddles (m A B : Text) : Prop :=
  ∃ k, 0 < k ∧ k < m.length ∧ m.take k <:+ A ∧ m.drop k <+: B

/-- Two texts agree when one is a prefix of the other. -/
def agree : Text → Text → Bool
  | [], _ => true
  | _, [] => true
  | a :: x, b :: y => a == b && agree x y

/-- No proper suffix of `m` agrees with `P`: no occurrence of `m` can run into a text that
starts with `P`. -/
def clearRight (m P : Text) : Bool :=
  (List.range m.length).all fun k => k == 0 || !agree (m.drop k) P

/-- No proper prefix of `m` agrees, read backwards, with the end of `S`: no occurrence of `m`
can start in a text that ends with `S`. -/
def clearLeft (m S : Text) : Bool :=
  (List.range m.length).all fun k => k == 0 || !agree (m.take k).reverse S.reverse

/-- A text `Z` in which `m` does not occur and across whose ends no occurrence of `m` can
reach, whatever surrounds it. -/
def Inert (m Z : Text) : Prop :=
  occurrences m Z = 0 ∧ (∀ A B, ¬ Straddles m A (Z ++ B)) ∧ (∀ A B, ¬ Straddles m (A ++ Z) B)

/-- The text has a `+` directly followed by a lower-case `c`. -/
def hasPlusLowerC : Text → Bool
  | a :: b :: s => (a == 43 && b == 99) || hasPlusLowerC (b :: s)
  | _ => false

/-! ## The markers and the injected texts (`cmd/project.go`, lines 116-134) -/

/-- The import marker searched for by `Command.Create`. -/
def importMarker : Text := lit "//+cobra:commandsImport"

/-- The registration marker searched for by `Command.Create`. -/
def subcommandsMarker : Text := lit "//+cobra:subcommands"

/-! ## `strings.Title` -/

/-- The Unicode tables consulted by `strings.Title` for runes above `0x7F`. -/
structure UnicodeTables where
  isLetter : Nat → Bool
  isDigit : Nat → Bool
  isSpace : Nat → Bool
  toTitle : Nat → Nat

/-- Tables that treat every rune above `0x7F` as a caseless letter. -/
def asciiTables : UnicodeTables :=
  ⟨fun _ => true, fun _ => false, fun _ => false, fun r => r⟩

/-- Go `strings.isSeparator`. -/
def isSeparator (U : UnicodeTables) (r : Nat) : Bool :=
  if r ≤ 0x7F then
    if 48 ≤ r ∧ r ≤ 57 then false
    else if 97 ≤ r ∧ r ≤ 122 then false
    else if 65 ≤ r ∧ r ≤ 90 then false
    else if r = 95 then false
    else true
  else if U.isLetter r || U.isDigit r then false
  else U.isSpace r

/-- Go `unicode.ToTitle`. -/
def ToTitle (U : UnicodeTables) (r : Nat) : Nat :=
  if r ≤ 0x7F then (if 97 ≤ r ∧ r ≤ 122 then r - 32 else r) else U.toTitle r

/-- The mapping loop of `strings.Title`, `prev` being the previous rune of the input. -/
def titleFrom (U : UnicodeTables) : Nat → Text → Text
  | _, [] => []
  | prev, r :: s => (if isSeparator U prev then ToTitle U r else r) :: titleFrom U r s

/-- Go `strings.Title`: the first letter of every word mapped to title case. -/
def Title (U : UnicodeTables) (s : Text) : Text := titleFrom U 32 s

/-- The table maps no rune above `0x7F` into ASCII other than to an upper-case letter. -/
def UnicodeTables.TitleSound (U : UnicodeTables) : Prop :=
  ∀ r, 0x7F < r → 0x7F < U.toTitle r ∨ (65 ≤ U.toTitle r ∧ U.toTitle r ≤ 90)

/-- The import path literal written in place of the import marker:
`fmt.Sprintf("\"%s/pkg/%s/commands\"", PkgName, AppName)`. -/
def importLiteral (pkgName appName : Text) : Text :=
  lit "\"" ++ pkgName ++ lit "/pkg/" ++ appName ++ lit "/commands\""

/-- The registration statement for a command name. -/
def registration (U : UnicodeTables) (cmdName : Text) : Text :=
  lit "rootCmd.AddCommand(commands.Build" ++ Title U cmdName ++ lit "Cmd())"

/-- The text written in place of the registration marker:
`fmt.Sprintf("rootCmd.AddCommand(commands.Build%sCmd())\n\t//+cobra:subcommands", Title(CmdName))`. -/
def registrationReplacement (U : UnicodeTables) (cmdName : Text) : Text :=
  lit "rootCmd.AddCommand(commands.Build" ++ Title U cmdName ++
    lit "Cmd())\n\t//+cobra:subcommands"

/-- The text that `Command.Create` puts in front of the registration marker. -/
def registrationLine (U : UnicodeTables) (cmdName : Text) : Text :=
  lit "rootCmd.AddCommand(commands.Build" ++ Title U cmdName ++ lit "Cmd())\n\t"

/-- The import step of `Command.Create` (line 119). -/
def importStep (pkgName appName : Text) (root : Text) : Text :=
  Replace1 root importMarker (importLiteral pkgName appName)

/-- The registration step of `Command.Create` (line 134). -/
def registrationStep (U : UnicodeTables) (cmdName : Text) (root : Text) : Text :=
  Replace1 root subcommandsMarker (registrationReplacement U cmdName)

/-- The import step on a text `A ++ Z ++ B` whose middle part `Z` is out of reach of
the import marker: the texts that replace `A` and `B`. -/
def importAround (pkgName appName : Text) (A B : Text) : Text × Text :=
  if occurrences importMarker A = 0 then (A, importStep pkgName appName B)
  else (importStep pkgName appName A, B)

/-- A block of registration lines: empty, or out of reach of both markers. -/
def Block (L : Text) : Prop :=
  L = [] ∨ (Inert subcommandsMarker L ∧ Inert importMarker L)

/-- The root content `Command.Create` writes back, from the content it read. -/
def injectRoot (U : UnicodeTables) (pkgName appName cmdName : Text) (root : Text) : Text :=
  registrationStep U cmdName (importStep pkgName appName root)

/-! ## Projects and commands (`cmd/project.go`, lines 19-34) -/

/-- The part of a license the generator reads: the header for source files and the template
text of the `LICENSE` file. -/
structure License where
  Header : Text
  Text : Text

/-- A path is the list of its segments. -/
abbrev Path := List Text

/-- Go `Project`. -/
structure Project where
  PkgName : Text
  Copyright : Text
  AbsolutePath : Path
  Legal : License
  Viper : Bool
  AppName : Text

/-- Go `Command`; the embedded `*Project` is the field `Project`. -/
structure Command where
  CmdName : Text
  CmdParent : Text
  Project : Project

/-! ## The templates (`tpl/main.go`) -/

/-- Part of `RootTemplate`: from after the package name to the opening quote of `Use:`. -/
def rootImports (viper : Bool) : Text :=
  (lit "\n" ++
    lit "\n" ++
    lit "import (") ++
  (if viper then lit "\n" ++
  lit "\t\"fmt\"" else []) ++
  (lit "\n" ++
    lit "\t\"os\"\n" ++
    lit "\n" ++
    lit "\t//+cobra:commandsImport\n" ++
    lit "\t\"github.com/spf13/cobra\"") ++
  (if viper then lit "\n" ++
  lit "\t\"github.com/spf13/viper\"" else []) ++
  (lit "\n" ++
    lit ")\n" ++
    lit "\n") ++
  (if viper then lit "var cfgFile string" else []) ++
  (lit "\n" ++
    lit "\n" ++
    lit "// rootCmd represents the base command when called without any subcommands\n" ++
    lit "func BuildRootCmd() *cobra.Command \x7b\n" ++
    lit "\trootCmd := &cobra.Command\x7b\n" ++
    lit "\t\tUse:   \"")

/-- Part of `RootTemplate`: from the closing quote of `Use:` to the `if .Viper` of the flags;
the registration marker is in this part. -/
def rootCommand : Text :=
  lit "\",\n" ++
  lit "\t\tShort: \"A brief description of your application\",\n" ++
  lit "\t\tLong: \x60A longer description that spans multiple lines and likely contains\n" ++
  lit "examples and usage of using your application. For example:\n" ++
  lit "\n" ++
  lit "Cobra is a CLI library for Go that empowers applications.\n" ++
  lit "This application is a tool to generate the needed files\n" ++
  lit "to quickly create a Cobra application.\x60,\n" ++
  lit "\t\t// Uncomment the following line if your bare application\n" ++
  lit "\t\t// has an action associated with it:\n" ++
  lit "\t\t// Run: func(cmd *cobra.Command, args []string) \x7b \x7d,\n" ++
  lit "\t\x7d\n" ++
  lit "\n" ++
  lit "\t//+cobra:subcommands\n" ++
  lit "\n" ++
  lit "\t// Here you will define your flags and configuration settings.\n" ++
  lit "\t// Cobra supports persistent flags, which, if defined here,\n" ++
  lit "\t// will be global for your application.\n"

/-- Part of `RootTemplate`: the persistent flag line up to the application name: live with
Viper, commented out without. -/
def rootFlag (viper : Bool) : Text :=
  if viper then
    lit "\n" ++
    lit "\trootCmd.PersistentFlags().StringVar(&cfgFile, \"config\", \"\", \"config file (default is $HOME/."
  else
    lit "\n" ++
    lit "\t// rootCmd.PersistentFlags().StringVar(&cfgFile, \"config\", \"\", \"config file (default is $HOME/."

/-- Part of `RootTemplate`: from after the flag line to the `if .Viper` of `initConfig`. -/
def rootExecute (viper : Bool) : Text :=
  (lit ".yaml)\")\n" ++
    lit "\n" ++
    lit "\t// Cobra also supports local flags, which will only run\n" ++
    lit "\t// when this action is called directly.\n" ++
    lit "\trootCmd.Flags().BoolP(\"toggle\", \"t\", false, \"Help message for toggle\")\n" ++
    lit "\n" ++
    lit "\treturn rootCmd\n" ++
    lit "\x7d\n" ++
    lit "\n" ++
    lit "// Execute adds all child commands to the root command and sets flags appropriately.\n" ++
    lit "// This is called by main.main(). It only needs to happen once to the rootCmd.\n" ++
    lit "func Execute() \x7b\n" ++
    lit "\tif err := BuildRootCmd().Execute(); err != nil \x7b\n" ++
    lit "\t\tos.Exit(1)\n" ++
    lit "\t\x7d\n" ++
    lit "\x7d") ++
  (if viper then
    lit "\n" ++
    lit "func init() \x7b\n" ++
    lit "\tcobra.OnInitialize(initConfig)\n" ++
    lit "\x7d\n"
  else []) ++
  lit "\n" ++
  lit "\n"

/-- Part of `RootTemplate`: `initConfig` up to the first application name. -/
def rootConfigA : Text :=
  lit "// initConfig reads in config file and ENV variables if set.\n" ++
  lit "func initConfig() \x7b\n" ++
  lit "\tif cfgFile != \"\" \x7b\n" ++
  lit "\t\t// Use config file from the flag.\n" ++
  lit "\t\tviper.SetConfigFile(cfgFile)\n" ++
  lit "\t\x7d else \x7b\n" ++
  lit "\t\t// Find home directory.\n" ++
  lit "\t\thome, err := os.UserHomeDir()\n" ++
  lit "\t\tcobra.CheckErr(err)\n" ++
  lit "\n" ++
  lit "\t\t// Search config in home directory with name \"."

/-- Part of `RootTemplate`: `initConfig` between the two application names. -/
def rootConfigB : Text :=
  lit "\" (without extension).\n" ++
  lit "\t\tviper.AddConfigPath(home)\n" ++
  lit "\t\tviper.SetConfigType(\"yaml\")\n" ++
  lit "\t\tviper.SetConfigName(\"."

/-- Part of `RootTemplate`: `initConfig` after the second application name. -/
def rootConfigC : Text :=
  lit "\")\n" ++
  lit "\t\x7d\n" ++
  lit "\n" ++
  lit "\tviper.AutomaticEnv() // read in environment variables that match\n" ++
  lit "\n" ++
  lit "\t// If a config file is found, read it in.\n" ++
  lit "\tif err := viper.ReadInConfig(); err == nil \x7b\n" ++
  lit "\t\tfmt.Fprintln(os.Stderr, \"Using config file:\", viper.ConfigFileUsed())\n" ++
  lit "\t\x7d\n" ++
  lit "\x7d"

/-- The output of executing `RootTemplate` on a project.  `{{- ` and ` -}}` trim the
white space of the neighbouring text; an empty `Legal.Header` prints nothing either way. -/
def renderRoot (p : Project) : Text :=
  lit "/*\n" ++ p.Copyright ++ lit "\n" ++ p.Legal.Header ++ lit "\n*/\npackage " ++ p.AppName ++
  rootImports p.Viper ++ p.AppName ++ rootCommand ++ rootFlag p.Viper ++ p.AppName ++
  rootExecute p.Viper ++
  (if p.Viper then rootConfigA ++ p.AppName ++ rootConfigB ++ p.AppName ++ rootConfigC
   else []) ++
  lit "\n"

/-- The output of executing `MainTemplate` on a project. -/
def renderMain (p : Project) : Text :=
  lit "/*\n" ++ p.Copyright ++ lit "\n" ++ p.Legal.Header ++
  (lit "\n" ++
   lit "*/\n" ++
   lit "package main\n" ++
   lit "\n" ++
   lit "import \"") ++ p.PkgName ++ lit "/pkg/" ++ p.AppName ++
  (lit "\"\n" ++
   lit "\n" ++
   lit "func main() \x7b\n" ++
   lit "\t") ++ p.AppName ++
  (lit ".Execute()\n" ++
   lit "\x7d\n")

/-- Part of `AddCommandTemplate`: from the end of the header comment to the first command name. -/
def subImports : Text :=
  lit "\n" ++
  lit "*/\n" ++
  lit "package commands\n" ++
  lit "\n" ++
  lit "import (\n" ++
  lit "\t\"fmt\"\n" ++
  lit "\n" ++
  lit "\t\"github.com/spf13/cobra\"\n" ++
  lit ")\n" ++
  lit "\n" ++
  lit "// "

/-- Part of `AddCommandTemplate`: from `Use:` to the `Println` of the command. -/
def subCommand : Text :=
  lit "\",\n" ++
  lit "\t\tShort: \"A brief description of your command\",\n" ++
  lit "\t\tLong: \x60A longer description that spans multiple lines and likely contains examples\n" ++
  lit "and usage of using your command. For example:\n" ++
  lit "\n" ++
  lit "Cobra is a CLI library for Go that empowers applications.\n" ++
  lit "This application is a tool to generate the needed files\n" ++
  lit "to quickly create a Cobra application.\x60,\n" ++
  lit "\t\tRun: func(cmd *cobra.Command, args []string) \x7b\n" ++
  lit "\t\t\tfmt.Println(\""

/-- The output of executing `AddCommandTemplate` on a command; `title` is `strings.Title`
(`templateFuncs`). -/
def renderSub (U : UnicodeTables) (c : Command) : Text :=
  lit "/*\n" ++ c.Project.Copyright ++ lit "\n" ++ c.Project.Legal.Header ++ subImports ++
  Title U c.CmdName ++ lit "Cmd represents the " ++ c.CmdName ++ (lit " command\n" ++
   lit "func Build") ++
  Title U c.CmdName ++ (lit "Cmd() *cobra.Command \x7b\n" ++
   lit "\tcmd := &cobra.Command\x7b\n" ++
   lit "\t\tUse:   \"") ++
  c.CmdName ++ subCommand ++ c.CmdName ++
  (lit " called\")\n" ++
   lit "\t\t\x7d,\n" ++
   lit "\t\x7d\n" ++
   lit "\treturn cmd\n" ++
   lit "\x7d\n")

/-! ## The file system -/

/-- A node of the file system. -/
inductive Node where
  | dir
  | file (content : Text)
  deriving DecidableEq

/-- A file system maps a path to the node found there, `[]` being the root directory. -/
abbrev FS := Path → Option Node

/-- How a call ends: it returns `nil`, it returns an error, `cobra.CheckErr` ends the process,
or `template.Must` panics. -/
inductive Outcome where
  | returned
  | failed
  | exited
  | panicked
  deriving DecidableEq

/-- What parsing and executing a template text gives: a parse error, an execution error
after some output was written, or the whole output. -/
inductive RenderResult where
  | parseError
  | execError (written : Text)
  | done (out : Text)

/-- The segments of a name: the texts between its slashes. -/
def splitSlash : Text → List Text
  | [] => [[]]
  | r :: s =>
    if r = 47 then [] :: splitSlash s
    else
      match splitSlash s with
      | [] => [[r]]
      | seg :: rest => (r :: seg) :: rest

/-- The segments of all the elements of a `filepath.Join`, in order. -/
def segments : List Text → List Text
  | [] => []
  | e :: es => splitSlash e ++ segments es

/-- One step of Go `filepath.Clean` on a rooted path: an empty segment and `.` are dropped,
`..` removes the segment before it (and nothing at the root), any other segment is kept. -/
def cleanStep (acc : Path) (seg : Text) : Path :=
  if seg.isEmpty || seg == lit "." then acc
  else if seg == lit ".." then acc.dropLast
  else acc ++ [seg]

/-- Go `filepath.Join` on a rooted, clean directory and further elements: the elements are
joined with slashes and the result is cleaned. -/
def filepath.Join (dir : Path) (elems : List Text) : Path :=
  (segments elems).foldl cleanStep dir

/-- A segment that `filepath.Clean` keeps as it is: not empty, not `.`, not `..`, without
slash. -/
def plainSegment (s : Text) : Bool :=
  !s.isEmpty && !(s == lit ".") && !(s == lit "..") && s.all fun r => !(r == 47)

/-- The file system with `node` at `p`. -/
def FS.set (fs : FS) (p : Path) (node : Node) : FS :=
  fun q => if q = p then some node else fs q

/-- The path is the root or names a directory. -/
def FS.isDir (fs : FS) (p : Path) : Bool :=
  p.isEmpty || fs p == some Node.dir

/-- Some proper ancestor of the path is a file. -/
def FS.underFile (fs : FS) (p : Path) : Bool :=
  p.dropLast.inits.any fun q =>
    match fs q with
    | some (Node.file _) => true
    | _ => false

/-- The test `_, err := os.Stat(p); os.IsNotExist(err)`: nothing is at `p`, and no ancestor
is a file (`ENOTDIR` is not a not-exist error). -/
def statNotExist (fs : FS) (p : Path) : Bool :=
  !p.isEmpty && (fs p).isNone && !fs.underFile p

/-- Go `os.Mkdir`: fails when something is at `p` or the parent is no directory. -/
def os.Mkdir (fs : FS) (p : Path) : Option FS :=
  if p.isEmpty || (fs p).isSome || !fs.isDir p.dropLast then none
  else some (fs.set p Node.dir)

/-- Go `os.MkdirAll` on the reversed path: nothing to do on a directory, an error on a file,
otherwise the parent is made first and then the directory itself. -/
def mkdirAllRev (fs : FS) : List Text → Option FS
  | [] => some fs
  | seg :: up =>
    match fs (seg :: up).reverse with
    | some Node.dir => some fs
    | some (Node.file _) => none
    | none =>
      match mkdirAllRev fs up with
      | none => none
      | some fs1 => os.Mkdir fs1 (seg :: up).reverse

/-- Go `os.MkdirAll`. -/
def os.MkdirAll (fs : FS) (p : Path) : Option FS := mkdirAllRev fs p.reverse

/-- Go `os.Create`: the file at `p` is created or truncated; fails on a directory or when
the parent is no directory. -/
def os.Create (fs : FS) (p : Path) : Option FS :=
  if p.isEmpty || fs p == some Node.dir || !fs.isDir p.dropLast then none
  else some (fs.set p (Node.file []))

/-- Go `os.ReadFile`. -/
def os.ReadFile (fs : FS) (p : Path) : Option Text :=
  match fs p with
  | some (Node.file content) => some content
  | _ => none

/-- Go `os.WriteFile`: the file at `p` is created or truncated and receives `data`. -/
def os.WriteFile (fs : FS) (p : Path) (data : Text) : Option FS :=
  match os.Create fs p with
  | none => none
  | some fs1 => some (fs1.set p (Node.file data))

/-- The directory test and creation `if _, err := os.Stat(d); os.IsNotExist(err) { mk(d) }`. -/
def ensureDir (mk : FS → Path → Option FS) (fs : FS) (d : Path) : Option FS :=
  if statNotExist fs d then mk fs d else some fs

/-! ## `Project.Create` and `Command.Create` -/

/-- The path `fmt.Sprintf("%s/LICENSE", p.AbsolutePath)`. -/
def Project.licensePath (p : Project) : Path := p.AbsolutePath ++ [lit "LICENSE"]

/-- The path of `cmd/<AppName>/main.go`. -/
def Project.mainPath (p : Project) : Path :=
  filepath.Join p.AbsolutePath [lit "cmd", p.AppName, lit "main.go"]

/-- The path of `pkg/<AppName>/root.go`. -/
def Project.rootPath (p : Project) : Path :=
  filepath.Join p.AbsolutePath [lit "pkg", p.AppName, lit "root.go"]

/-- The path of `pkg/<AppName>/commands/<CmdName>.go`. -/
def Command.cmdPath (c : Command) : Path :=
  filepath.Join (filepath.Join c.Project.AbsolutePath [lit "pkg", c.Project.AppName, lit "commands"])
    [c.CmdName ++ lit ".go"]

/-- Go `Project.createLicenseFile` (lines 89-101); `E` parses and executes a license text on
the copyright data. -/
def Project.createLicenseFile (E : Text → RenderResult) (p : Project) (fs : FS) :
    FS × Outcome :=
  match os.Create fs p.licensePath with
  | none => (fs, Outcome.failed)
  | some fs1 =>
    match E p.Legal.Text with
    | RenderResult.parseError => (fs1, Outcome.panicked)
    | RenderResult.execError written =>
      (fs1.set p.licensePath (Node.file written), Outcome.failed)
    | RenderResult.done out => (fs1.set p.licensePath (Node.file out), Outcome.returned)

/-- Go `Project.Create` (lines 36-87). -/
def Project.Create (E : Text → RenderResult) (p : Project) (fs : FS) : FS × Outcome :=
  match ensureDir os.Mkdir fs p.AbsolutePath with
  | none => (fs, Outcome.failed)
  | some fs1 =>
    match ensureDir os.MkdirAll fs1 (filepath.Join p.AbsolutePath [lit "cmd", p.AppName]) with
    | none => (fs1, Outcome.exited)
    | some fs2 =>
      match os.Create fs2 p.mainPath with
      | none => (fs2, Outcome.failed)
      | some fs3 =>
        let fs4 := fs3.set p.mainPath (Node.file (renderMain p))
        match ensureDir os.MkdirAll fs4 (filepath.Join p.AbsolutePath [lit "pkg", p.AppName]) with
        | none => (fs4, Outcome.exited)
        | some fs5 =>
          if statNotExist fs5 p.rootPath then
            match os.Create fs5 p.rootPath with
            | none => (fs5, Outcome.failed)
            | some fs6 =>
              p.createLicenseFile E (fs6.set p.rootPath (Node.file (renderRoot p)))
          else p.createLicenseFile E fs5

/-- Go `Command.Create` (lines 103-141). -/
def Command.Create (U : UnicodeTables) (c : Command) (fs : FS) : FS × Outcome :=
  match os.ReadFile fs c.Project.rootPath with
  | none => (fs, Outcome.failed)
  | some rootFileData =>
    match ensureDir os.MkdirAll fs
        (filepath.Join c.Project.AbsolutePath [lit "pkg", c.Project.AppName, lit "commands"]) with
    | none => (fs, Outcome.exited)
    | some fs1 =>
      let rootFileData1 := importStep c.Project.PkgName c.Project.AppName rootFileData
      match os.Create fs1 c.cmdPath with
      | none => (fs1, Outcome.failed)
      | some fs2 =>
        let fs3 := fs2.set c.cmdPath (Node.file (renderSub U c))
        let rootFileData2 := registrationStep U c.CmdName rootFileData1
        match os.WriteFile fs3 c.Project.rootPath rootFileData2 with
        | none => (fs3, Outcome.failed)
        | some fs4 => (fs4, Outcome.returned)

/-- Fixed texts with variable texts in between: `T0 ++ V1 ++ T1 ++ V2 ++ T2 ++ ...`. -/
def weave (T0 : Text) : List (Text × Text) → Text
  | [] => T0
  | (V, T) :: rest => T0 ++ (V ++ weave T rest)

/-- The command `foo` of a project. -/
def fooCommand (p : Project) : Command := ⟨lit "foo", [], p⟩

/-! ## A sample project -/

/-- A project `demo` of package `example.com/demo`, rooted at `/proj`, whose license text is
plain. -/
def demoProject : Project :=
  ⟨lit "example.com/demo", lit "Copyright 2021", [lit "proj"], ⟨[], lit "MIT License"⟩,
    false, lit "demo"⟩

/-- A file system with the project directory and a `LICENSE` edited by the user. -/
def demoFS : FS := fun q =>
  if q = [lit "proj"] then some Node.dir
  else if q = [lit "proj", lit "LICENSE"] then some (Node.file (lit "my own terms"))
  else none

/-- A file system of an initialized project whose files were edited since: the root file
holds neither marker. -/
def editedFS : FS := fun q =>
  if q = [lit "proj"] ∨ q = [lit "proj", lit "cmd"] ∨ q = [lit "proj", lit "cmd", lit "demo"] ∨
      q = [lit "proj", lit "pkg"] ∨ q = [lit "proj", lit "pkg", lit "demo"] then some Node.dir
  else if q = [lit "proj", lit "pkg", lit "demo", lit "root.go"] then
    some (Node.file (lit "package demo\n"))
  else if q = [lit "proj", lit "cmd", lit "demo", lit "main.go"] then
    some (Node.file (lit "package main // old\n"))
  else if q = [lit "proj", lit "LICENSE"] then some (Node.file (lit "my own terms"))
  else none

/-- The command `serve` of the sample project. -/
def serveCommand : Command := ⟨lit "serve", [], demoProject⟩

/-- A template engine on plain texts: a text without actions is its own output. -/
def plainEngine : Text → RenderResult := fun t => RenderResult.done t

/-- A template engine on a text that does not parse. -/
def brokenEngine : Text → RenderResult := fun _ => RenderResult.parseError

/-- The file system after the sample project was initialized in its directory. -/
def freshFS : FS := (demoProject.Create plainEngine demoFS).1

/-- The root content after `Command.Create` has run for each command name in turn. -/
def createAll (U : UnicodeTables) (pkgName appName : Text) : List Text → Text → Text
  | [], root => root
  | n :: ns, root => createAll U pkgName appName ns (injectRoot U pkgName appName n root)

/-! ## General facts on occurrences -/

theorem isPrefixOf_iff (m s : Text) : m.isPrefixOf s = true ↔ m <+: s :=
  List.isPrefixOf_iff_prefix

theorem straddles_cons {m A B : Text} (a : Nat) (h : Straddles m A B) :
    Straddles m (a :: A) B := by
  obtain ⟨k, h0, h1, h2, h3⟩ := h
  exact ⟨k, h0, h1, h2.trans (List.suffix_cons a A), h3⟩

theorem prefix_append_cases {m A B : Text} (h : m <+: A ++ B) :
    m <+: A ∨ ∃ t, m = A ++ t ∧ t <+: B := by
  rcases Nat.le_total m.length A.length with hl | hl
  · left
    exact List.prefix_of_prefix_length_le h (List.prefix_append A B) hl
  · right
    have hA : A <+: m := List.prefix_of_prefix_length_le (List.prefix_append A B) h hl
    obtain ⟨t, rfl⟩ := hA
    exact ⟨t, rfl, (List.prefix_append_right_inj A).mp h⟩

theorem prefix_app_iff_of_not_straddles {m A B : Text} (hA : A ≠ [])
    (h : ¬ Straddles m A B) : m <+: A ++ B ↔ m <+: A := by
  constructor
  · intro hp
    rcases prefix_append_cases hp with h1 | ⟨t, rfl, ht⟩
    · exact h1
    · rcases t with _ | ⟨c, t⟩
      · simp
      · exfalso
        apply h
        refine ⟨A.length, List.length_pos.mpr hA, by simp, ?_, ?_⟩
        · simp
        · simpa using ht
  · intro hp
    exact hp.trans (List.prefix_append A B)

theorem occurrences_append {m A B : Text} (hm : m ≠ []) (h : ¬ Straddles m A B) :
    occurrences m (A ++ B) = occurrences m A + occurrences m B := by
  induction A with
  | nil => simp [occurrences, hm]
  | cons a A ih =>
    have ih1 := ih (fun hs => h (straddles_cons a hs))
    have key : m.isPrefixOf (a :: (A ++ B)) = m.isPrefixOf (a :: A) := by
      rw [Bool.eq_iff_iff, isPrefixOf_iff, isPrefixOf_iff]
      exact prefix_app_iff_of_not_straddles (A := a :: A) (by simp) h
    have e1 : occurrences m (a :: A ++ B) =
        (if m.isPrefixOf (a :: (A ++ B)) then 1 else 0) + occurrences m (A ++ B) := rfl
    have e2 : occurrences m (a :: A) =
        (if m.isPrefixOf (a :: A) then 1 else 0) + occurrences m A := rfl
    rw [e1, e2, key, ih1]
    omega

theorem prefix_agrees {x P B : Text} (h : x <+: P ++ B) : agree x P = true := by
  induction x generalizing P with
  | nil => simp [agree]
  | cons a x ih =>
    cases P with
    | nil => simp [agree]
    | cons b P =>
      rw [List.cons_append, List.cons_prefix_cons] at h
      simp [agree, h.1, ih h.2]

theorem not_straddles_of_clearRight {m P : Text} (h : clearRight m P = true) (A B : Text) :
    ¬ Straddles m A (P ++ B) := by
  rintro ⟨k, h0, h1, -, h3⟩
  have hk := (List.all_eq_true.mp h) k (List.mem_range.mpr h1)
  have ha := prefix_agrees h3
  have hk0 : (k == 0) = false := by simp; omega
  simp [hk0, ha] at hk

theorem not_straddles_of_clearLeft {m S : Text} (h : clearLeft m S = true) (A B : Text) :
    ¬ Straddles m (A ++ S) B := by
  rintro ⟨k, h0, h1, h2, -⟩
  have hk := (List.all_eq_true.mp h) k (List.mem_range.mpr h1)
  have h2r : (m.take k).reverse <+: S.reverse ++ A.reverse := by
    rw [← List.reverse_append]
    exact List.reverse_prefix.mpr h2
  have ha := prefix_agrees h2r
  have hk0 : (k == 0) = false := by simp; omega
  simp [hk0, ha] at hk

theorem occurrences_cons_eq_zero {m : Text} {a : Nat} {A : Text}
    (h : occurrences m (a :: A) = 0) : m.isPrefixOf (a :: A) = false ∧ occurrences m A = 0 := by
  have e : occurrences m (a :: A) =
      (if m.isPrefixOf (a :: A) then 1 else 0) + occurrences m A := rfl
  rw [e] at h
  by_cases hp : m.isPrefixOf (a :: A) = true
  · simp [hp] at h
  · simp only [Bool.not_eq_true] at hp
    simp [hp] at h
    exact ⟨hp, h⟩

theorem not_prefix_append {m : Text} {a : Nat} {A B : Text}
    (h0 : occurrences m (a :: A) = 0) (hs : ¬ Straddles m (a :: A) B) :
    m.isPrefixOf (a :: (A ++ B)) = false := by
  have h1 := (occurrences_cons_eq_zero h0).1
  rw [Bool.eq_false_iff] at h1 ⊢
  intro hp
  apply h1
  rw [isPrefixOf_iff] at hp ⊢
  exact (prefix_app_iff_of_not_straddles (A := a :: A) (by simp) hs).mp hp

theorem Index_eq_none_iff (m s : Text) : Index s m = none ↔ occurrences m s = 0 := by
  induction s with
  | nil => by_cases hm : m = [] <;> simp [Index, occurrences, hm]
  | cons c s ih =>
    have e : occurrences m (c :: s) =
        (if m.isPrefixOf (c :: s) then 1 else 0) + occurrences m s := rfl
    by_cases hp : m.isPrefixOf (c :: s) = true
    · simp [Index, e, hp]
    · simp only [Bool.not_eq_true] at hp
      simp [Index, e, hp, ih]

theorem Replace1_cons (m n : Text) (c : Nat) (s : Text) :
    Replace1 (c :: s) m n =
      if m.isPrefixOf (c :: s) then n ++ (c :: s).drop m.length else c :: Replace1 s m n := by
  by_cases hp : m.isPrefixOf (c :: s) = true
  · simp [Replace1, Index, hp]
  · simp only [Bool.not_eq_true] at hp
    cases hi : Index s m with
    | none => simp [Replace1, Index, hp, hi]
    | some j => simp [Replace1, Index, hp, hi, Nat.add_right_comm]

theorem Replace1_nil (m n : Text) (hm : m ≠ []) : Replace1 [] m n = [] := by
  simp [Replace1, Index, hm]

theorem Replace1_absent {m s : Text} (n : Text) (h : occurrences m s = 0) :
    Replace1 s m n = s := by
  have := (Index_eq_none_iff m s).mpr h
  simp [Replace1, this]

theorem Replace1_append_right {m A B : Text} (n : Text) (_hm : m ≠ [])
    (h0 : occurrences m A = 0) (hs : ¬ Straddles m A B) :
    Replace1 (A ++ B) m n = A ++ Replace1 B m n := by
  induction A with
  | nil => simp
  | cons a A ih =>
    have hnp := not_prefix_append h0 hs
    rw [List.cons_append, Replace1_cons m n, hnp]
    simp [ih (occurrences_cons_eq_zero h0).2 (fun h => hs (straddles_cons a h))]

theorem Replace1_head {m : Text} (n B : Text) (hm : m ≠ []) :
    Replace1 (m ++ B) m n = n ++ B := by
  cases m with
  | nil => exact absurd rfl hm
  | cons c m =>
    rw [List.cons_append, Replace1_cons (c :: m) n]
    have : (c :: m).isPrefixOf (c :: (m ++ B)) = true := by
      rw [isPrefixOf_iff]; exact List.prefix_append (c :: m) B
    rw [this]
    simp

theorem Replace1_at {m A B : Text} (n : Text) (hm : m ≠ [])
    (h0 : occurrences m A = 0) (hs : ¬ Straddles m A (m ++ B)) :
    Replace1 (A ++ m ++ B) m n = A ++ n ++ B := by
  rw [List.append_assoc, Replace1_append_right n hm h0 hs, Replace1_head n B hm,
    List.append_assoc]

theorem Replace1_cases (m n : Text) (hm : m ≠ []) (s : Text) :
    (occurrences m s = 0 ∧ Replace1 s m n = s) ∨
    ∃ A B, s = A ++ m ++ B ∧ occurrences m A = 0 ∧ Replace1 s m n = A ++ n ++ B := by
  induction s with
  | nil => left; simp [occurrences, hm, Replace1_nil m n hm]
  | cons c s ih =>
    by_cases hp : m.isPrefixOf (c :: s) = true
    · right
      obtain ⟨B, hB⟩ := (isPrefixOf_iff _ _).mp hp
      refine ⟨[], B, by simp [hB], by simp [occurrences, hm], ?_⟩
      rw [← hB, Replace1_head n B hm]; simp
    · simp only [Bool.not_eq_true] at hp
      have e : occurrences m (c :: s) =
          (if m.isPrefixOf (c :: s) then 1 else 0) + occurrences m s := rfl
      rcases ih with ⟨h0, h1⟩ | ⟨A, B, hs, h0, h1⟩
      · left
        refine ⟨by simp [e, hp, h0], ?_⟩
        rw [Replace1_cons m n, hp]; simp [h1]
      · right
        refine ⟨c :: A, B, by simp [hs], ?_, ?_⟩
        · have e2 : occurrences m (c :: A) =
              (if m.isPrefixOf (c :: A) then 1 else 0) + occurrences m A := rfl
          have hnp : m.isPrefixOf (c :: A) = false := by
            rw [Bool.eq_false_iff] at hp ⊢
            intro hq
            apply hp
            rw [isPrefixOf_iff] at hq ⊢
            rw [hs, List.append_assoc, ← List.cons_append]
            exact hq.trans (List.prefix_append _ _)
          simp [e2, hnp, h0]
        · rw [Replace1_cons m n, hp]; simp [h1]

theorem occurrences_inert {m Z : Text} (hm : m ≠ []) (h : Inert m Z) (A B : Text) :
    occurrences m (A ++ Z ++ B) = occurrences m A + occurrences m B := by
  obtain ⟨h0, hr, hl⟩ := h
  rw [List.append_assoc, occurrences_append hm (hr A B),
    occurrences_append hm (by simpa using hl [] B), h0]
  omega

theorem inert_of_clear {m Z P X Y S : Text} (h0 : occurrences m Z = 0)
    (hP : Z = P ++ X) (hr : clearRight m P = true)
    (hS : Z = Y ++ S) (hl : clearLeft m S = true) : Inert m Z := by
  refine ⟨h0, fun A B => ?_, fun A B => ?_⟩
  · rw [hP, List.append_assoc]; exact not_straddles_of_clearRight hr A _
  · rw [hS, ← List.append_assoc]; exact not_straddles_of_clearLeft hl _ B

theorem occurrences_Replace1_inert {m old new : Text} (hm : m ≠ []) (hold : old ≠ [])
    (ho : Inert m old) (hn : Inert m new) (s : Text) :
    occurrences m (Replace1 s old new) = occurrences m s := by
  rcases Replace1_cases old new hold s with ⟨-, h1⟩ | ⟨A, B, hs, -, h1⟩
  · rw [h1]
  · rw [h1, hs, occurrences_inert hm ho, occurrences_inert hm hn]

theorem hasPlusLowerC_mono {m s : Text} (hp : m <+: s) (h : hasPlusLowerC m = true) :
    hasPlusLowerC s = true := by
  induction m generalizing s with
  | nil => simp [hasPlusLowerC] at h
  | cons a m ih =>
    cases m with
    | nil => simp [hasPlusLowerC] at h
    | cons b m =>
      obtain ⟨t, rfl⟩ := hp
      simp only [hasPlusLowerC, List.cons_append, Bool.or_eq_true] at h ⊢
      rcases h with h | h
      · exact Or.inl h
      · exact Or.inr (ih (List.prefix_append (b :: m) t) h)

theorem hasPlusLowerC_tail {a : Nat} {s : Text} (h : hasPlusLowerC (a :: s) = false) :
    hasPlusLowerC s = false := by
  cases s with
  | nil => rfl
  | cons b s =>
    simp only [hasPlusLowerC, Bool.or_eq_false_iff] at h
    exact h.2

theorem occurrences_eq_zero_of_plusLowerC {m t : Text} (hm : hasPlusLowerC m = true)
    (ht : hasPlusLowerC t = false) : occurrences m t = 0 := by
  induction t with
  | nil =>
    have : m ≠ [] := by rintro rfl; simp [hasPlusLowerC] at hm
    simp [occurrences, this]
  | cons c t ih =>
    have e : occurrences m (c :: t) =
        (if m.isPrefixOf (c :: t) then 1 else 0) + occurrences m t := rfl
    have hnp : m.isPrefixOf (c :: t) = false := by
      rw [Bool.eq_false_iff]
      intro hp
      rw [isPrefixOf_iff] at hp
      rw [hasPlusLowerC_mono hp hm] at ht
      exact Bool.noConfusion ht
    rw [e, hnp, ih (hasPlusLowerC_tail ht)]
    simp

theorem ToTitle_ne_lowerC {U : UnicodeTables} (hU : U.TitleSound) (r : Nat) :
    ToTitle U r ≠ 99 := by
  unfold ToTitle
  split
  · split <;> omega
  · have := hU r (by omega)
    omega

theorem ToTitle_eq_plus {U : UnicodeTables} (hU : U.TitleSound) {r : Nat}
    (h : ToTitle U r = 43) : r = 43 := by
  unfold ToTitle at h
  split at h
  · split at h <;> omega
  · have := hU r (by omega)
    omega

theorem titleFrom_plusLowerC {U : UnicodeTables} (hU : U.TitleSound) (prev : Nat) (s : Text) :
    hasPlusLowerC (titleFrom U prev s) = false ∧
      (isSeparator U prev = true → (titleFrom U prev s).head? ≠ some 99) := by
  induction s generalizing prev with
  | nil => simp [titleFrom, hasPlusLowerC]
  | cons r s ih =>
    obtain ⟨ih1, ih2⟩ := ih r
    constructor
    · cases ht : titleFrom U r s with
      | nil => simp [titleFrom, ht, hasPlusLowerC]
      | cons y t =>
        rw [ht] at ih1 ih2
        simp only [titleFrom, ht, hasPlusLowerC, Bool.or_eq_false_iff, ih1, and_true,
          Bool.and_eq_false_imp, beq_iff_eq]
        intro hx
        have hr : r = 43 := by
          split at hx
          · exact ToTitle_eq_plus hU hx
          · exact hx
        have hsep : isSeparator U r = true := by rw [hr]; simp [isSeparator]
        have := ih2 hsep
        simpa using this
    · intro hsep
      simp only [titleFrom, hsep, if_true, List.head?_cons, ne_eq, Option.some.injEq]
      exact ToTitle_ne_lowerC hU r

theorem Title_plusLowerC {U : UnicodeTables} (hU : U.TitleSound) (s : Text) :
    hasPlusLowerC (Title U s) = false :=
  (titleFrom_plusLowerC hU 32 s).1

theorem inert_sandwich {m P T S : Text} (hm : m ≠ [])
    (hP : occurrences m P = 0) (hT : occurrences m T = 0) (hS : occurrences m S = 0)
    (hPr : clearRight m P = true) (hPl : clearLeft m P = true)
    (hSr : clearRight m S = true) (hSl : clearLeft m S = true) : Inert m (P ++ T ++ S) := by
  have h0 : occurrences m (P ++ T ++ S) = 0 := by
    rw [occurrences_append hm (by simpa using not_straddles_of_clearRight hSr (P ++ T) []),
      occurrences_append hm (by simpa using not_straddles_of_clearLeft hPl [] T), hP, hT, hS]
  exact inert_of_clear h0 (List.append_assoc P T S) hPr rfl hSl

/-! ## Facts on the two markers -/

theorem subcommandsMarker_ne_nil : subcommandsMarker ≠ [] := by decide

theorem importMarker_ne_nil : importMarker ≠ [] := by decide

theorem subcommandsMarker_borderfree (A B : Text) :
    ¬ Straddles subcommandsMarker A (subcommandsMarker ++ B) :=
  not_straddles_of_clearRight (by decide) A B

theorem importMarker_borderfree (A B : Text) :
    ¬ Straddles importMarker A (importMarker ++ B) :=
  not_straddles_of_clearRight (by decide) A B

theorem inert_subcommands_importMarker : Inert subcommandsMarker importMarker :=
  inert_of_clear (P := importMarker) (X := []) (Y := []) (S := importMarker)
    (by decide) (by simp) (by decide) (by simp) (by decide)

theorem inert_import_subcommandsMarker : Inert importMarker subcommandsMarker :=
  inert_of_clear (P := subcommandsMarker) (X := []) (Y := []) (S := subcommandsMarker)
    (by decide) (by simp) (by decide) (by simp) (by decide)

theorem occurrences_Title_subcommands {U : UnicodeTables} (hU : U.TitleSound) (n : Text) :
    occurrences subcommandsMarker (Title U n) = 0 :=
  occurrences_eq_zero_of_plusLowerC (by decide) (Title_plusLowerC hU n)

theorem occurrences_Title_import {U : UnicodeTables} (hU : U.TitleSound) (n : Text) :
    occurrences importMarker (Title U n) = 0 :=
  occurrences_eq_zero_of_plusLowerC (by decide) (Title_plusLowerC hU n)

theorem inert_subcommands_registrationLine {U : UnicodeTables} (hU : U.TitleSound) (n : Text) :
    Inert subcommandsMarker (registrationLine U n) :=
  inert_sandwich subcommandsMarker_ne_nil (by decide) (occurrences_Title_subcommands hU n)
    (by decide) (by decide) (by decide) (by decide) (by decide)

theorem inert_import_registrationLine {U : UnicodeTables} (hU : U.TitleSound) (n : Text) :
    Inert importMarker (registrationLine U n) :=
  inert_sandwich importMarker_ne_nil (by decide) (occurrences_Title_import hU n)
    (by decide) (by decide) (by decide) (by decide) (by decide)

theorem registrationReplacement_eq (U : UnicodeTables) (n : Text) :
    registrationReplacement U n = registrationLine U n ++ subcommandsMarker := by
  have : lit "Cmd())\n\t//+cobra:subcommands" = lit "Cmd())\n\t" ++ subcommandsMarker := by
    decide
  simp [registrationReplacement, registrationLine, this]

theorem registrationLine_eq (U : UnicodeTables) (n : Text) :
    registrationLine U n = registration U n ++ lit "\n\t" := by
  have : lit "Cmd())\n\t" = lit "Cmd())" ++ lit "\n\t" := by decide
  simp [registration, registrationLine, this]

theorem inert_importLiteral {m : Text} (pkgName appName : Text)
    (hr : clearRight m (lit "\"") = true) (hl : clearLeft m (lit "/commands\"") = true)
    (h0 : occurrences m (importLiteral pkgName appName) = 0) :
    Inert m (importLiteral pkgName appName) :=
  inert_of_clear (P := lit "\"")
    (X := pkgName ++ lit "/pkg/" ++ appName ++ lit "/commands\"")
    (Y := lit "\"" ++ pkgName ++ lit "/pkg/" ++ appName) (S := lit "/commands\"")
    h0 (by simp [importLiteral]) hr rfl hl

/-- One registration step on a text whose first registration marker follows `A`. -/
theorem registrationStep_at (U : UnicodeTables) (n : Text) {A : Text} (B : Text)
    (h0 : occurrences subcommandsMarker A = 0) :
    registrationStep U n (A ++ subcommandsMarker ++ B) =
      A ++ registrationLine U n ++ subcommandsMarker ++ B := by
  unfold registrationStep
  rw [Replace1_at _ subcommandsMarker_ne_nil h0 (subcommandsMarker_borderfree A B),
    registrationReplacement_eq]
  simp

/-- The registration step never changes the number of registration markers. -/
theorem occurrences_registrationStep {U : UnicodeTables} (hU : U.TitleSound) (n s : Text) :
    occurrences subcommandsMarker (registrationStep U n s) =
      occurrences subcommandsMarker s := by
  unfold registrationStep
  rcases Replace1_cases subcommandsMarker (registrationReplacement U n)
      subcommandsMarker_ne_nil s with ⟨-, h1⟩ | ⟨A, B, hs, -, h1⟩
  · rw [h1]
  · have e1 : A ++ registrationReplacement U n ++ B =
        A ++ registrationLine U n ++ (subcommandsMarker ++ B) := by
      rw [registrationReplacement_eq]; simp
    rw [h1, hs, e1,
      occurrences_inert subcommandsMarker_ne_nil (inert_subcommands_registrationLine hU n),
      List.append_assoc A,
      occurrences_append subcommandsMarker_ne_nil (subcommandsMarker_borderfree A B)]

/-- The registration step never changes the number of import markers. -/
theorem occurrences_import_registrationStep {U : UnicodeTables} (hU : U.TitleSound)
    (n s : Text) :
    occurrences importMarker (registrationStep U n s) = occurrences importMarker s := by
  unfold registrationStep
  rcases Replace1_cases subcommandsMarker (registrationReplacement U n)
      subcommandsMarker_ne_nil s with ⟨-, h1⟩ | ⟨A, B, hs, -, h1⟩
  · rw [h1]
  · have e1 : A ++ registrationReplacement U n ++ B =
        A ++ registrationLine U n ++ (subcommandsMarker ++ B) := by
      rw [registrationReplacement_eq]; simp
    have e2 := occurrences_inert importMarker_ne_nil inert_import_subcommandsMarker [] B
    have e3 := occurrences_inert importMarker_ne_nil inert_import_subcommandsMarker A B
    have e4 : occurrences importMarker [] = 0 := by decide
    simp only [List.nil_append] at e2
    rw [h1, hs, e1,
      occurrences_inert importMarker_ne_nil (inert_import_registrationLine hU n), e2, e3, e4]
    omega

theorem Replace1_append_left {m A : Text} (n B : Text) (hm : m ≠ [])
    (hb : ∀ X Y, ¬ Straddles m X (m ++ Y)) (h : occurrences m A ≠ 0) :
    Replace1 (A ++ B) m n = Replace1 A m n ++ B := by
  rcases Replace1_cases m n hm A with ⟨h0, -⟩ | ⟨A1, B1, hs, h0, h1⟩
  · exact absurd h0 h
  · rw [h1, hs]
    have e : A1 ++ m ++ B1 ++ B = A1 ++ m ++ (B1 ++ B) := by simp
    rw [e, Replace1_at n hm h0 (hb A1 _)]
    simp

theorem inert_append {m X Y : Text} (hm : m ≠ []) (hX : Inert m X) (hY : Inert m Y) :
    Inert m (X ++ Y) := by
  refine ⟨?_, fun A B => ?_, fun A B => ?_⟩
  · have := occurrences_inert hm hY X []
    simp only [List.append_nil] at this
    rw [this, hX.1]
    simp [occurrences, hm]
  · rw [List.append_assoc]; exact hX.2.1 A _
  · rw [← List.append_assoc]; exact hY.2.2 _ B

theorem asciiTables_sound : asciiTables.TitleSound := fun _ h => Or.inl h

theorem occurrences_self_append {m : Text} (hm : m ≠ []) (h1 : occurrences m m = 1)
    (hr : clearRight m m = true) (hl : clearLeft m m = true) (A B : Text) :
    occurrences m (A ++ m ++ B) = occurrences m A + 1 + occurrences m B := by
  rw [List.append_assoc, occurrences_append hm (not_straddles_of_clearRight hr A B),
    occurrences_append hm (by simpa using not_straddles_of_clearLeft hl [] B), h1]
  omega

theorem occurrences_subcommands_split (A B : Text) :
    occurrences subcommandsMarker (A ++ subcommandsMarker ++ B) =
      occurrences subcommandsMarker A + 1 + occurrences subcommandsMarker B :=
  occurrences_self_append subcommandsMarker_ne_nil (by decide) (by decide) (by decide) A B

theorem occurrences_import_split (A B : Text) :
    occurrences importMarker (A ++ importMarker ++ B) =
      occurrences importMarker A + 1 + occurrences importMarker B :=
  occurrences_self_append importMarker_ne_nil (by decide) (by decide) (by decide) A B

/-- The import step on a text whose first import marker follows `A`. -/
theorem importStep_at (pkgName appName : Text) {A : Text} (B : Text)
    (h0 : occurrences importMarker A = 0) :
    importStep pkgName appName (A ++ importMarker ++ B) =
      A ++ importLiteral pkgName appName ++ B :=
  Replace1_at _ importMarker_ne_nil h0 (importMarker_borderfree A B)

/-- The import step on a text without import marker. -/
theorem importStep_absent (pkgName appName : Text) {s : Text}
    (h0 : occurrences importMarker s = 0) : importStep pkgName appName s = s :=
  Replace1_absent _ h0

/-- The import step leaves the registration markers alone when the import literal brings
none. -/
theorem occurrences_subcommands_importStep {pkgName appName : Text}
    (hlit : occurrences subcommandsMarker (importLiteral pkgName appName) = 0) (s : Text) :
    occurrences subcommandsMarker (importStep pkgName appName s) =
      occurrences subcommandsMarker s :=
  occurrences_Replace1_inert subcommandsMarker_ne_nil importMarker_ne_nil
    inert_subcommands_importMarker
    (inert_importLiteral pkgName appName (by decide) (by decide) hlit) s

/-- The import step consumes one import marker when the import literal brings none. -/
theorem occurrences_import_importStep {pkgName appName : Text}
    (hlit : occurrences importMarker (importLiteral pkgName appName) = 0) (s : Text) :
    occurrences importMarker (importStep pkgName appName s) =
      occurrences importMarker s - 1 := by
  unfold importStep
  rcases Replace1_cases importMarker (importLiteral pkgName appName)
      importMarker_ne_nil s with ⟨h0, h1⟩ | ⟨A, B, hs, -, h1⟩
  · rw [h1, h0]
  · rw [h1, hs, occurrences_import_split,
      occurrences_inert importMarker_ne_nil
        (inert_importLiteral pkgName appName (by decide) (by decide) hlit)]
    omega

theorem importStep_around (pkgName appName : Text) {Z : Text} (hZ : Inert importMarker Z)
    (A B : Text) :
    importStep pkgName appName (A ++ Z ++ B) =
      (importAround pkgName appName A B).1 ++ Z ++ (importAround pkgName appName A B).2 := by
  unfold importAround
  by_cases h : occurrences importMarker A = 0
  · simp only [h, if_true]
    unfold importStep
    rw [List.append_assoc, Replace1_append_right _ importMarker_ne_nil h (hZ.2.1 A B),
      Replace1_append_right _ importMarker_ne_nil hZ.1 (by simpa using hZ.2.2 [] B),
      List.append_assoc]
  · simp only [h, if_false]
    unfold importStep
    rw [List.append_assoc,
      Replace1_append_left _ _ importMarker_ne_nil importMarker_borderfree h,
      List.append_assoc]

theorem block_nil : Block [] := Or.inl rfl

theorem block_inert_import {L : Text} (hL : Block L) :
    Inert importMarker (L ++ subcommandsMarker) := by
  rcases hL with rfl | ⟨-, h⟩
  · simpa using inert_import_subcommandsMarker
  · exact inert_append importMarker_ne_nil h inert_import_subcommandsMarker

theorem block_occurrences {L : Text} (hL : Block L) (X : Text) :
    occurrences subcommandsMarker (X ++ L) = occurrences subcommandsMarker X := by
  rcases hL with rfl | ⟨h, -⟩
  · simp
  · have := occurrences_inert subcommandsMarker_ne_nil h X []
    simp only [List.append_nil] at this
    rw [this]
    simp [occurrences, subcommandsMarker_ne_nil]

theorem block_append {U : UnicodeTables} (hU : U.TitleSound) {L : Text} (hL : Block L)
    (n : Text) : Block (L ++ registrationLine U n) := by
  right
  rcases hL with rfl | ⟨h1, h2⟩
  · simpa using
      And.intro (inert_subcommands_registrationLine hU n) (inert_import_registrationLine hU n)
  · exact ⟨inert_append subcommandsMarker_ne_nil h1 (inert_subcommands_registrationLine hU n),
      inert_append importMarker_ne_nil h2 (inert_import_registrationLine hU n)⟩

theorem importAround_fst_occurrences {pkgName appName : Text}
    (hlit : occurrences subcommandsMarker (importLiteral pkgName appName) = 0) (A B : Text) :
    occurrences subcommandsMarker (importAround pkgName appName A B).1 =
      occurrences subcommandsMarker A := by
  unfold importAround
  split
  · rfl
  · exact occurrences_subcommands_importStep hlit A

theorem importAround_snd_occurrences {pkgName appName : Text}
    (hlit : occurrences subcommandsMarker (importLiteral pkgName appName) = 0) (A B : Text) :
    occurrences subcommandsMarker (importAround pkgName appName A B).2 =
      occurrences subcommandsMarker B := by
  unfold importAround
  split
  · exact occurrences_subcommands_importStep hlit B
  · rfl

theorem importAround_eq (pkgName appName : Text) (A B : Text) :
    importStep pkgName appName (A ++ subcommandsMarker ++ B) =
      (importAround pkgName appName A B).1 ++ subcommandsMarker ++
        (importAround pkgName appName A B).2 :=
  importStep_around pkgName appName inert_import_subcommandsMarker A B

theorem importAround_absent (pkgName appName : Text) {A B : Text}
    (h : occurrences importMarker (A ++ subcommandsMarker ++ B) = 0) :
    importAround pkgName appName A B = (A, B) := by
  rw [occurrences_inert importMarker_ne_nil inert_import_subcommandsMarker] at h
  have hA : occurrences importMarker A = 0 := by omega
  have hB : occurrences importMarker B = 0 := by omega
  simp [importAround, hA, importStep_absent pkgName appName hB]

/-- One `Command.Create` on a root whose single registration marker is preceded by a block
of registration lines: the new line is appended to the block. -/
theorem injectRoot_block {U : UnicodeTables} {pkgName appName : Text}
    (hlit : occurrences subcommandsMarker (importLiteral pkgName appName) = 0)
    (n : Text) {A L : Text} (B : Text) (hL : Block L)
    (hA : occurrences subcommandsMarker A = 0) :
    injectRoot U pkgName appName n (A ++ L ++ subcommandsMarker ++ B) =
      (importAround pkgName appName A B).1 ++ (L ++ registrationLine U n) ++
        subcommandsMarker ++ (importAround pkgName appName A B).2 := by
  unfold injectRoot
  have e : A ++ L ++ subcommandsMarker ++ B = A ++ (L ++ subcommandsMarker) ++ B := by simp
  rw [e, importStep_around pkgName appName (block_inert_import hL)]
  have e2 : (importAround pkgName appName A B).1 ++ (L ++ subcommandsMarker) ++
      (importAround pkgName appName A B).2 =
      ((importAround pkgName appName A B).1 ++ L) ++ subcommandsMarker ++
        (importAround pkgName appName A B).2 := by simp
  have h0 : occurrences subcommandsMarker ((importAround pkgName appName A B).1 ++ L) = 0 := by
    rw [block_occurrences hL, importAround_fst_occurrences hlit, hA]
  rw [e2, registrationStep_at U n _ h0]
  simp

theorem occurrences_eq_zero_iff (m s : Text) : occurrences m s = 0 ↔ ¬ m <:+: s := by
  induction s with
  | nil => by_cases hm : m = [] <;> simp [occurrences, hm]
  | cons c s ih =>
    have e : occurrences m (c :: s) =
        (if m.isPrefixOf (c :: s) then 1 else 0) + occurrences m s := rfl
    rw [e, List.infix_cons_iff, not_or, ← ih, ← isPrefixOf_iff]
    by_cases hp : m.isPrefixOf (c :: s) = true
    · simp [hp]
    · simp [hp]

theorem occurrences_import_injectRoot {U : UnicodeTables} (hU : U.TitleSound)
    {pkgName appName : Text}
    (hlit : occurrences importMarker (importLiteral pkgName appName) = 0) (n s : Text) :
    occurrences importMarker (injectRoot U pkgName appName n s) =
      occurrences importMarker s - 1 := by
  unfold injectRoot
  rw [occurrences_import_registrationStep hU, occurrences_import_importStep hlit]

theorem occurrences_import_createAll {U : UnicodeTables} (hU : U.TitleSound)
    {pkgName appName : Text}
    (hlit : occurrences importMarker (importLiteral pkgName appName) = 0)
    (names : List Text) (s : Text) :
    occurrences importMarker (createAll U pkgName appName names s) =
      occurrences importMarker s - names.length := by
  induction names generalizing s with
  | nil => simp [createAll]
  | cons n ns ih =>
    rw [createAll, ih, occurrences_import_injectRoot hU hlit, List.length_cons]
    omega

/-! ## Facts on the file system -/

theorem FS.set_same (fs : FS) (p : Path) (node : Node) : fs.set p node p = some node := by
  simp [FS.set]

theorem FS.set_other (fs : FS) {p q : Path} (node : Node) (h : q ≠ p) :
    fs.set p node q = fs q := by
  simp [FS.set, h]

theorem os.Mkdir_eq {fs fs1 : FS} {p : Path} (h : os.Mkdir fs p = some fs1) :
    fs p = none ∧ fs1 = fs.set p Node.dir := by
  unfold os.Mkdir at h
  split at h
  · exact Option.noConfusion h
  · rename_i hc
    simp only [Bool.or_eq_true, not_or] at hc
    have hp : fs p = none := by
      cases hfp : fs p with
      | none => rfl
      | some n => simp [hfp] at hc
    exact ⟨hp, (Option.some.inj h).symm⟩

theorem os.Mkdir_frame {fs fs1 : FS} {p : Path} (h : os.Mkdir fs p = some fs1) (q : Path)
    (hq : fs q ≠ none) : fs1 q = fs q := by
  obtain ⟨hp, rfl⟩ := os.Mkdir_eq h
  apply FS.set_other
  rintro rfl
  exact hq hp

theorem mkdirAllRev_frame {fs fs1 : FS} {l : List Text} (h : mkdirAllRev fs l = some fs1)
    (q : Path) (hq : fs q ≠ none) : fs1 q = fs q := by
  induction l generalizing fs1 with
  | nil =>
    simp only [mkdirAllRev, Option.some.injEq] at h
    rw [← h]
  | cons seg up ih =>
    unfold mkdirAllRev at h
    split at h
    · simp only [Option.some.injEq] at h
      rw [← h]
    · exact Option.noConfusion h
    · split at h
      · exact Option.noConfusion h
      · rename_i fs2 h2
        rw [os.Mkdir_frame h q (by rw [ih h2]; exact hq), ih h2]

theorem ensureDir_Mkdir_frame {fs fs1 : FS} {d : Path}
    (h : ensureDir os.Mkdir fs d = some fs1) (q : Path) (hq : fs q ≠ none) :
    fs1 q = fs q := by
  unfold ensureDir at h
  split at h
  · exact os.Mkdir_frame h q hq
  · simp only [Option.some.injEq] at h
    rw [← h]

theorem ensureDir_MkdirAll_frame {fs fs1 : FS} {d : Path}
    (h : ensureDir os.MkdirAll fs d = some fs1) (q : Path) (hq : fs q ≠ none) :
    fs1 q = fs q := by
  unfold ensureDir at h
  split at h
  · exact mkdirAllRev_frame h q hq
  · simp only [Option.some.injEq] at h
    rw [← h]

theorem os.Create_eq {fs fs1 : FS} {p : Path} (h : os.Create fs p = some fs1) :
    fs1 = fs.set p (Node.file []) := by
  unfold os.Create at h
  split at h
  · exact Option.noConfusion h
  · exact (Option.some.inj h).symm

theorem os.WriteFile_eq {fs fs1 : FS} {p : Path} {data : Text}
    (h : os.WriteFile fs p data = some fs1) :
    fs1 p = some (Node.file data) ∧ ∀ q, q ≠ p → fs1 q = fs q := by
  unfold os.WriteFile at h
  split at h
  · exact Option.noConfusion h
  · rename_i fs2 h2
    have := os.Create_eq h2
    subst this
    simp only [Option.some.injEq] at h
    subst h
    exact ⟨FS.set_same _ _ _, fun q hq => by rw [FS.set_other _ _ hq, FS.set_other _ _ hq]⟩

theorem statNotExist_of_some {fs : FS} {p : Path} {node : Node} (h : fs p = some node) :
    statNotExist fs p = false := by
  simp [statNotExist, h]

theorem splitSlash_plain {s : Text} (h : s.all (fun r => !(r == 47)) = true) :
    splitSlash s = [s] := by
  induction s with
  | nil => rfl
  | cons r s ih =>
    simp only [List.all_cons, Bool.and_eq_true, Bool.not_eq_true', beq_eq_false_iff_ne,
      ne_eq] at h
    have ih1 := ih h.2
    simp [splitSlash, h.1, ih1]

theorem segments_append (xs ys : List Text) : segments (xs ++ ys) = segments xs ++ segments ys := by
  induction xs with
  | nil => rfl
  | cons x xs ih => simp [segments, ih]

theorem cleanStep_plain (acc : Path) {s : Text} (h : plainSegment s = true) :
    cleanStep acc s = acc ++ [s] := by
  simp only [plainSegment, Bool.and_eq_true, Bool.not_eq_true'] at h
  obtain ⟨⟨⟨h1, h2⟩, h3⟩, -⟩ := h
  simp [cleanStep, h1, h2, h3]

theorem filepath.Join_last (dir : Path) (elems : List Text) (last : Text)
    (h : plainSegment last = true) :
    filepath.Join dir (elems ++ [last]) = filepath.Join dir elems ++ [last] := by
  have hs : splitSlash last = [last] := by
    simp only [plainSegment, Bool.and_eq_true] at h
    exact splitSlash_plain h.2
  simp only [filepath.Join, segments_append, segments, hs, List.append_nil, List.foldl_append,
    List.foldl_cons, List.foldl_nil]
  exact cleanStep_plain _ h

theorem Project.mainPath_eq (p : Project) :
    p.mainPath = filepath.Join p.AbsolutePath [lit "cmd", p.AppName] ++ [lit "main.go"] :=
  filepath.Join_last p.AbsolutePath [lit "cmd", p.AppName] (lit "main.go") (by decide)

theorem Project.rootPath_eq (p : Project) :
    p.rootPath = filepath.Join p.AbsolutePath [lit "pkg", p.AppName] ++ [lit "root.go"] :=
  filepath.Join_last p.AbsolutePath [lit "pkg", p.AppName] (lit "root.go") (by decide)

theorem last_ne {A B : Path} {x y : Text} (h : x ≠ y) : A ++ [x] ≠ B ++ [y] := by
  intro he
  have := congrArg List.getLast? he
  simp at this
  exact h this

theorem Project.mainPath_ne_rootPath (p : Project) : p.mainPath ≠ p.rootPath := by
  rw [Project.mainPath_eq, Project.rootPath_eq]
  exact last_ne (by decide)

theorem Project.licensePath_ne_rootPath (p : Project) : p.licensePath ≠ p.rootPath := by
  rw [Project.rootPath_eq]
  exact last_ne (by decide)

theorem Project.licensePath_ne_mainPath (p : Project) : p.licensePath ≠ p.mainPath := by
  rw [Project.mainPath_eq]
  exact last_ne (by decide)

/-- What `createLicenseFile` does to the file system: only `LICENSE` changes, and a call
that returns has written the whole rendered license there. -/
theorem Project.createLicenseFile_spec (E : Text → RenderResult) (p : Project) (fs : FS) :
    (∀ q, q ≠ p.licensePath → (p.createLicenseFile E fs).1 q = fs q) ∧
    ((p.createLicenseFile E fs).2 = Outcome.returned →
      ∃ out, E p.Legal.Text = RenderResult.done out ∧
        (p.createLicenseFile E fs).1 p.licensePath = some (Node.file out)) := by
  unfold Project.createLicenseFile
  cases hc : os.Create fs p.licensePath with
  | none => simp
  | some fs1 =>
    have := os.Create_eq hc
    subst this
    cases hE : E p.Legal.Text with
    | parseError =>
      simp only [reduceCtorEq, false_implies, and_true]
      exact fun q hq => FS.set_other _ _ hq
    | execError w =>
      simp only [reduceCtorEq, false_implies, and_true]
      exact fun q hq => by rw [FS.set_other _ _ hq, FS.set_other _ _ hq]
    | done out =>
      simp only
      refine ⟨fun q hq => by rw [FS.set_other _ _ hq, FS.set_other _ _ hq], fun _ => ?_⟩
      exact ⟨out, rfl, FS.set_same _ _ _⟩

/-- The ways `Project.Create` can end: it fails or exits before the license step, or it ends
as `createLicenseFile` does on a file system in which `main.go` holds the rendered entry
point and a root file that existed before the call is untouched. -/
theorem Project.Create_cases (E : Text → RenderResult) (p : Project) (fs : FS) :
    ((p.Create E fs).2 = Outcome.failed ∨ (p.Create E fs).2 = Outcome.exited) ∨
    ∃ fs5, p.Create E fs = p.createLicenseFile E fs5 ∧
      fs5 p.mainPath = some (Node.file (renderMain p)) ∧
      ∀ content, fs p.rootPath = some (Node.file content) →
        fs5 p.rootPath = some (Node.file content) := by
  unfold Project.Create
  split
  · exact Or.inl (Or.inl rfl)
  · rename_i fs1 h1
    split
    · exact Or.inl (Or.inr rfl)
    · rename_i fs2 h2
      split
      · exact Or.inl (Or.inl rfl)
      · rename_i fs3 h3
        have e3 := os.Create_eq h3
        subst e3
        simp only
        split
        · exact Or.inl (Or.inr rfl)
        · rename_i fs5 h5
          have hmain : fs5 p.mainPath = some (Node.file (renderMain p)) := by
            rw [ensureDir_MkdirAll_frame h5 _ (by simp [FS.set_same]), FS.set_same]
          have hroot : ∀ content, fs p.rootPath = some (Node.file content) →
              fs5 p.rootPath = some (Node.file content) := by
            intro content hc
            have r1 : fs1 p.rootPath = some (Node.file content) := by
              rw [ensureDir_Mkdir_frame h1 _ (by simp [hc]), hc]
            have r2 : fs2 p.rootPath = some (Node.file content) := by
              rw [ensureDir_MkdirAll_frame h2 _ (by simp [r1]), r1]
            have r4 : ((fs2.set p.mainPath (Node.file [])).set p.mainPath
                (Node.file (renderMain p))) p.rootPath = some (Node.file content) := by
              rw [FS.set_other _ _ (Ne.symm p.mainPath_ne_rootPath),
                FS.set_other _ _ (Ne.symm p.mainPath_ne_rootPath), r2]
            rw [ensureDir_MkdirAll_frame h5 _ (by simp [r4]), r4]
          split
          · rename_i hs
            split
            · exact Or.inl (Or.inl rfl)
            · rename_i fs6 h6
              right
              have e6 := os.Create_eq h6
              subst e6
              refine ⟨_, rfl, ?_, ?_⟩
              · rw [FS.set_other _ _ p.mainPath_ne_rootPath,
                  FS.set_other _ _ p.mainPath_ne_rootPath, hmain]
              · intro content hc
                rw [statNotExist_of_some (hroot content hc)] at hs
                exact Bool.noConfusion hs
          · right
            exact ⟨fs5, rfl, hmain, hroot⟩

theorem Project.createLicenseFile_panicked (E : Text → RenderResult) (p : Project) (fs : FS)
    (h : (p.createLicenseFile E fs).2 = Outcome.panicked) :
    E p.Legal.Text = RenderResult.parseError ∧
      (p.createLicenseFile E fs).1 p.licensePath = some (Node.file []) := by
  unfold Project.createLicenseFile at h ⊢
  split at h
  · exact Outcome.noConfusion h
  · rename_i fs1 h1
    have e1 := os.Create_eq h1
    subst e1
    split at h
    · rename_i hE
      simp only [hE]
      exact ⟨trivial, FS.set_same _ _ _⟩
    · exact Outcome.noConfusion h
    · exact Outcome.noConfusion h

/-- A `Command.Create` that returns has read a root file and written the injected content
back to it. -/
theorem Command.Create_returned (U : UnicodeTables) (c : Command) (fs : FS)
    (h : (c.Create U fs).2 = Outcome.returned) :
    ∃ root, os.ReadFile fs c.Project.rootPath = some root ∧
      (c.Create U fs).1 c.Project.rootPath =
        some (Node.file (injectRoot U c.Project.PkgName c.Project.AppName c.CmdName root)) := by
  unfold Command.Create at h ⊢
  split at h
  · exact Outcome.noConfusion h
  · rename_i root hr
    refine ⟨root, hr, ?_⟩
    split at h
    · exact Outcome.noConfusion h
    · rename_i fs1 h1
      simp only at h ⊢
      split at h
      · exact Outcome.noConfusion h
      · rename_i fs2 h2
        split at h
        · exact Outcome.noConfusion h
        · rename_i fs4 h4
          exact (os.WriteFile_eq h4).1

theorem weave_head (T : Text) (l : List (Text × Text)) : ∃ X, weave T l = T ++ X := by
  cases l with
  | nil => exact ⟨[], by simp [weave]⟩
  | cons x rest => exact ⟨x.1 ++ weave x.2 rest, rfl⟩

/-- The occurrences of `m` in woven text, when no occurrence can cross an end of a fixed
text and the variable texts have none. -/
theorem occurrences_weave {m : Text} (hm : m ≠ []) (T0 : Text) (l : List (Text × Text))
    (h0 : clearLeft m T0 = true)
    (hl : ∀ x ∈ l, occurrences m x.1 = 0 ∧ clearLeft m x.2 = true ∧ clearRight m x.2 = true) :
    occurrences m (weave T0 l) =
      occurrences m T0 + (l.map fun x => occurrences m x.2).sum := by
  induction l generalizing T0 with
  | nil => simp [weave]
  | cons x rest ih =>
    obtain ⟨V, T⟩ := x
    obtain ⟨hV, hTl, hTr⟩ := hl (V, T) (List.mem_cons_self _ _)
    obtain ⟨X, hX⟩ := weave_head T rest
    have e1 : occurrences m (T0 ++ (V ++ weave T rest)) =
        occurrences m T0 + occurrences m (V ++ weave T rest) :=
      occurrences_append hm (by simpa using not_straddles_of_clearLeft h0 [] _)
    have e2 : occurrences m (V ++ weave T rest) =
        occurrences m V + occurrences m (weave T rest) := by
      rw [hX]
      exact occurrences_append hm (not_straddles_of_clearRight hTr V X)
    have e3 := ih T hTl (fun y hy => hl y (List.mem_cons_of_mem _ hy))
    simp only [weave, List.map_cons, List.sum_cons, e1, e2, e3, hV]
    omega

theorem renderRoot_weave (p : Project) :
    renderRoot p = weave (lit "/*\n")
      ([(p.Copyright, lit "\n"), (p.Legal.Header, lit "\n*/\npackage "),
        (p.AppName, rootImports p.Viper), (p.AppName, rootCommand ++ rootFlag p.Viper)] ++
      (if p.Viper then
        [(p.AppName, rootExecute true ++ rootConfigA), (p.AppName, rootConfigB),
          (p.AppName, rootConfigC ++ lit "\n")]
      else [(p.AppName, rootExecute false ++ lit "\n")])) := by
  cases hv : p.Viper <;>
    simp only [renderRoot, hv, weave, List.append_assoc, List.cons_append, List.nil_append,
      if_true, if_false, Bool.false_eq_true]

theorem titleFrom_getElem? (U : UnicodeTables) (prev : Nat) (s : Text) (i : Nat) :
    (titleFrom U prev s)[i]? =
      (s[i]?).map fun r =>
        if isSeparator U (if i = 0 then prev else s.getD (i - 1) 0) then ToTitle U r else r := by
  induction s generalizing prev i with
  | nil => simp [titleFrom]
  | cons r s ih =>
    cases i with
    | zero => simp [titleFrom]
    | succ i =>
      simp only [titleFrom, List.getElem?_cons_succ, ih, Nat.add_sub_cancel]
      cases i with
      | zero => simp
      | succ i => simp

theorem plainSegment_goFile {name : Text} (h : 47 ∉ name) :
    plainSegment (name ++ lit ".go") = true := by
  have hlen : (name ++ lit ".go").length = name.length + 3 := by
    rw [List.length_append]; rfl
  have h1 : (name ++ lit ".go").isEmpty = false := by
    cases hn : name ++ lit ".go" with
    | nil => rw [hn] at hlen; simp at hlen
    | cons a t => rfl
  have h2 : (name ++ lit ".go" == lit ".") = false := by
    rw [beq_eq_false_iff_ne]
    intro he
    rw [he] at hlen
    have : (lit ".").length = 1 := rfl
    omega
  have h3 : (name ++ lit ".go" == lit "..") = false := by
    rw [beq_eq_false_iff_ne]
    intro he
    rw [he] at hlen
    have : (lit "..").length = 2 := rfl
    omega
  have h4 : (name ++ lit ".go").all (fun r => !(r == 47)) = true := by
    rw [List.all_append, Bool.and_eq_true]
    refine ⟨?_, by decide⟩
    rw [List.all_eq_true]
    intro r hr
    have : r ≠ 47 := fun he => h (he ▸ hr)
    simpa using this
  simp [plainSegment, h1, h2, h3, h4]

/-- The file of a command whose name has no slash is not the root file. -/
theorem Command.cmdPath_ne_rootPath (c : Command) (h : 47 ∉ c.CmdName) :
    c.cmdPath ≠ c.Project.rootPath := by
  have e1 : c.cmdPath =
      filepath.Join c.Project.AbsolutePath [lit "pkg", c.Project.AppName] ++ [lit "commands"] ++
        [c.CmdName ++ lit ".go"] := by
    have a1 := filepath.Join_last c.Project.AbsolutePath [lit "pkg", c.Project.AppName]
      (lit "commands") (by decide)
    have a2 := filepath.Join_last
      (filepath.Join c.Project.AbsolutePath [lit "pkg", c.Project.AppName, lit "commands"]) []
      (c.CmdName ++ lit ".go") (plainSegment_goFile h)
    simp only [List.cons_append, List.nil_append] at a1 a2
    rw [Command.cmdPath, a2, a1]
    rfl
  rw [e1, Project.rootPath_eq]
  intro he
  have := congrArg List.length he
  simp at this

/-- A `Command.Create` that returns has left the rendered subcommand template in the file of
the command, unless that file is the root file. -/
theorem Command.Create_returned_sub (U : UnicodeTables) (c : Command) (fs : FS)
    (h : (c.Create U fs).2 = Outcome.returned) (hne : c.cmdPath ≠ c.Project.rootPath) :
    (c.Create U fs).1 c.cmdPath = some (Node.file (renderSub U c)) := by
  unfold Command.Create at h ⊢
  split at h
  · exact Outcome.noConfusion h
  · split at h
    · exact Outcome.noConfusion h
    · simp only at h ⊢
      split at h
      · exact Outcome.noConfusion h
      · split at h
        · exact Outcome.noConfusion h
        · rename_i fs4 h4
          show fs4 c.cmdPath = _
          rw [(os.WriteFile_eq h4).2 _ hne]
          exact FS.set_same _ _ _

/-! ## The claims -/

/-- C1 (amended): when the registration marker occurs exactly once in the root content and
the import literal of the project does not contain it, three successive `Command.Create`
calls for `a`, `b`, `c` leave the three registration statements, in that order and each
followed by a newline and a tab, directly in front of the marker; the marker still occurs
exactly once, nothing in front of the block contains it, and the text around the block is
the text around the original marker after three import steps (unchanged when the content
has no import marker). -/
theorem create_three_in_order (U : UnicodeTables) (hU : U.TitleSound)
    (pkgName appName a b c pre post : Text)
    (hone : occurrences subcommandsMarker (pre ++ subcommandsMarker ++ post) = 1)
    (hlit : occurrences subcommandsMarker (importLiteral pkgName appName) = 0) :
    ∃ P Q,
      createAll U pkgName appName [a, b, c] (pre ++ subcommandsMarker ++ post) =
        P ++ registration U a ++ lit "\n\t" ++ registration U b ++ lit "\n\t" ++
          registration U c ++ lit "\n\t" ++ subcommandsMarker ++ Q ∧
      occurrences subcommandsMarker P = 0 ∧
      occurrences subcommandsMarker
        (createAll U pkgName appName [a, b, c] (pre ++ subcommandsMarker ++ post)) = 1 ∧
      P ++ subcommandsMarker ++ Q =
        importStep pkgName appName (importStep pkgName appName
          (importStep pkgName appName (pre ++ subcommandsMarker ++ post))) ∧
      (occurrences importMarker (pre ++ subcommandsMarker ++ post) = 0 → P = pre ∧ Q = post) := by
  rw [occurrences_subcommands_split] at hone
  have hpre : occurrences subcommandsMarker pre = 0 := by omega
  have hpost : occurrences subcommandsMarker post = 0 := by omega
  generalize h1 : importAround pkgName appName pre post = r1
  generalize h2 : importAround pkgName appName r1.1 r1.2 = r2
  generalize h3 : importAround pkgName appName r2.1 r2.2 = r3
  have o1a : occurrences subcommandsMarker r1.1 = 0 := by
    rw [← h1, importAround_fst_occurrences hlit, hpre]
  have o1b : occurrences subcommandsMarker r1.2 = 0 := by
    rw [← h1, importAround_snd_occurrences hlit, hpost]
  have o2a : occurrences subcommandsMarker r2.1 = 0 := by
    rw [← h2, importAround_fst_occurrences hlit, o1a]
  have o2b : occurrences subcommandsMarker r2.2 = 0 := by
    rw [← h2, importAround_snd_occurrences hlit, o1b]
  have o3a : occurrences subcommandsMarker r3.1 = 0 := by
    rw [← h3, importAround_fst_occurrences hlit, o2a]
  have o3b : occurrences subcommandsMarker r3.2 = 0 := by
    rw [← h3, importAround_snd_occurrences hlit, o2b]
  have s1 := injectRoot_block (U := U) hlit a post block_nil hpre
  have s2 := injectRoot_block (U := U) hlit b r1.2 (block_append hU block_nil a) o1a
  have s3 := injectRoot_block (U := U) hlit c r2.2
    (block_append hU (block_append hU block_nil a) b) o2a
  rw [h1] at s1
  rw [h2] at s2
  rw [h3] at s3
  have hall : createAll U pkgName appName [a, b, c] (pre ++ subcommandsMarker ++ post) =
      r3.1 ++ ((([] ++ registrationLine U a) ++ registrationLine U b) ++ registrationLine U c)
        ++ subcommandsMarker ++ r3.2 := by
    have e0 : pre ++ subcommandsMarker ++ post = pre ++ [] ++ subcommandsMarker ++ post := by
      simp
    rw [createAll, createAll, createAll, createAll, e0, s1, s2, s3]
  refine ⟨r3.1, r3.2, ?_, o3a, ?_, ?_, ?_⟩
  · rw [hall]
    simp only [registrationLine_eq, List.nil_append, List.append_assoc]
  · rw [hall, List.append_assoc, List.append_assoc, ← List.append_assoc r3.1,
      ← List.append_assoc (r3.1 ++ _), occurrences_subcommands_split,
      block_occurrences (block_append hU (block_append hU (block_append hU block_nil a) b) c),
      o3a, o3b]
  · rw [importAround_eq, h1, importAround_eq, h2, importAround_eq, h3]
  · intro himp
    have e1 := importAround_absent pkgName appName himp
    rw [h1] at e1
    rw [e1] at h2
    have e2 := importAround_absent pkgName appName himp
    rw [h2] at e2
    rw [e2] at h3
    have e3 := importAround_absent pkgName appName himp
    rw [h3] at e3
    rw [e3]
    exact ⟨rfl, rfl⟩

/-- C1, an instance: application `demo`, package `example.com/demo`, commands `serve`,
`status` and `version`. -/
theorem create_three_in_order_witness :
    asciiTables.TitleSound ∧
    occurrences subcommandsMarker
      (lit "import (\n\t//+cobra:commandsImport\n)\n\t" ++ subcommandsMarker ++ lit "\n\x7d\n") = 1 ∧
    occurrences subcommandsMarker (importLiteral (lit "example.com/demo") (lit "demo")) = 0 ∧
    ∃ P Q,
      createAll asciiTables (lit "example.com/demo") (lit "demo")
          [lit "serve", lit "status", lit "version"]
          (lit "import (\n\t//+cobra:commandsImport\n)\n\t" ++ subcommandsMarker ++ lit "\n\x7d\n") =
        P ++ registration asciiTables (lit "serve") ++ lit "\n\t" ++
          registration asciiTables (lit "status") ++ lit "\n\t" ++
          registration asciiTables (lit "version") ++ lit "\n\t" ++ subcommandsMarker ++ Q ∧
      occurrences subcommandsMarker P = 0 ∧
      occurrences subcommandsMarker
        (createAll asciiTables (lit "example.com/demo") (lit "demo")
          [lit "serve", lit "status", lit "version"]
          (lit "import (\n\t//+cobra:commandsImport\n)\n\t" ++ subcommandsMarker ++ lit "\n\x7d\n")) = 1 ∧
      P ++ subcommandsMarker ++ Q =
        importStep (lit "example.com/demo") (lit "demo")
          (importStep (lit "example.com/demo") (lit "demo")
            (importStep (lit "example.com/demo") (lit "demo")
              (lit "import (\n\t//+cobra:commandsImport\n)\n\t" ++ subcommandsMarker ++
                lit "\n\x7d\n"))) ∧
      (occurrences importMarker
          (lit "import (\n\t//+cobra:commandsImport\n)\n\t" ++ subcommandsMarker ++ lit "\n\x7d\n") = 0 →
        P = lit "import (\n\t//+cobra:commandsImport\n)\n\t" ∧ Q = lit "\n\x7d\n") :=
  ⟨asciiTables_sound, by decide, by decide,
    create_three_in_order asciiTables asciiTables_sound (lit "example.com/demo") (lit "demo")
      (lit "serve") (lit "status") (lit "version")
      (lit "import (\n\t//+cobra:commandsImport\n)\n\t") (lit "\n\x7d\n") (by decide) (by decide)⟩

/-- C1 as stated fails: with application name `/+cobra:subcommands`, which contains neither
marker, the import literal brings a second registration marker, so that after three calls
the marker occurs twice. -/
theorem create_three_in_order_counterexample :
    ¬ ∀ (U : UnicodeTables) (pkgName appName a b c pre post : Text),
      U.TitleSound →
      occurrences subcommandsMarker pkgName = 0 → occurrences importMarker pkgName = 0 →
      occurrences subcommandsMarker appName = 0 → occurrences importMarker appName = 0 →
      occurrences subcommandsMarker (pre ++ subcommandsMarker ++ post) = 1 →
      occurrences subcommandsMarker
        (createAll U pkgName appName [a, b, c] (pre ++ subcommandsMarker ++ post)) = 1 := by
  intro h
  have h1 := h asciiTables (lit "p") (lit "/+cobra:subcommands") (lit "a") (lit "b") (lit "c")
    (importMarker ++ lit "\n") [] asciiTables_sound (by decide) (by decide) (by decide)
    (by decide) (by decide)
  revert h1
  decide

/-- C2 (amended): one `Command.Create` call replaces only the first registration marker of
the root content (as it stands after the import step) by the registration statement, a
newline, a tab and the marker itself, and leaves a content without marker alone; whenever
the import literal of the project does not contain the registration marker, the number of
registration markers after the call equals the number before it, for every command name. -/
theorem registration_marker_preserved (U : UnicodeTables) (hU : U.TitleSound)
    (pkgName appName cmdName root : Text) :
    ((occurrences subcommandsMarker (importStep pkgName appName root) = 0 ∧
        injectRoot U pkgName appName cmdName root = importStep pkgName appName root) ∨
      ∃ A B, importStep pkgName appName root = A ++ subcommandsMarker ++ B ∧
        occurrences subcommandsMarker A = 0 ∧
        injectRoot U pkgName appName cmdName root =
          A ++ registration U cmdName ++ lit "\n\t" ++ subcommandsMarker ++ B) ∧
    (occurrences subcommandsMarker (importLiteral pkgName appName) = 0 →
      occurrences subcommandsMarker (injectRoot U pkgName appName cmdName root) =
        occurrences subcommandsMarker root) := by
  constructor
  · rcases Replace1_cases subcommandsMarker (registrationReplacement U cmdName)
        subcommandsMarker_ne_nil (importStep pkgName appName root) with
      ⟨h0, h1⟩ | ⟨A, B, hs, h0, -⟩
    · exact Or.inl ⟨h0, h1⟩
    · refine Or.inr ⟨A, B, hs, h0, ?_⟩
      unfold injectRoot
      rw [hs, registrationStep_at U cmdName B h0, registrationLine_eq]
      simp
  · intro hlit
    unfold injectRoot
    rw [occurrences_registrationStep hU, occurrences_subcommands_importStep hlit]

/-- C2, an instance: the command name is the registration marker itself. -/
theorem registration_marker_preserved_witness :
    asciiTables.TitleSound ∧
    occurrences subcommandsMarker (importLiteral (lit "example.com/demo") (lit "demo")) = 0 ∧
    occurrences subcommandsMarker
      (injectRoot asciiTables (lit "example.com/demo") (lit "demo") subcommandsMarker
        (lit "a //+cobra:commandsImport b //+cobra:subcommands c //+cobra:subcommands")) =
      occurrences subcommandsMarker
        (lit "a //+cobra:commandsImport b //+cobra:subcommands c //+cobra:subcommands") :=
  ⟨asciiTables_sound, by decide,
    (registration_marker_preserved asciiTables asciiTables_sound (lit "example.com/demo")
      (lit "demo") subcommandsMarker
      (lit "a //+cobra:commandsImport b //+cobra:subcommands c //+cobra:subcommands")).2
      (by decide)⟩

/-- C2 as stated fails: with application name `/+cobra:subcommands` the import literal
contains the registration marker although neither name does; a root content that holds
only the import marker has no registration marker before the call and one after it. -/
theorem registration_marker_preserved_counterexample :
    occurrences subcommandsMarker (lit "example.com/demo") = 0 ∧
    occurrences subcommandsMarker (lit "/+cobra:subcommands") = 0 ∧
    occurrences subcommandsMarker importMarker = 0 ∧
    occurrences subcommandsMarker
      (injectRoot asciiTables (lit "example.com/demo") (lit "/+cobra:subcommands") (lit "serve")
        importMarker) = 1 ∧
    occurrences subcommandsMarker
      (injectRoot asciiTables (lit "example.com/demo") (lit "/+cobra:subcommands") (lit "serve")
        importMarker) ≠ occurrences subcommandsMarker importMarker := by
  decide

/-- C3 (amended): when the import marker occurs exactly once in the root content and
the import literal of the project does not contain it, the import marker occurs zero times
after every non-empty sequence of `Command.Create` calls, and at most once after any
sequence. -/
theorem import_marker_consumed (U : UnicodeTables) (hU : U.TitleSound)
    (pkgName appName root : Text) (names : List Text)
    (hone : occurrences importMarker root = 1)
    (hlit : occurrences importMarker (importLiteral pkgName appName) = 0) :
    (names ≠ [] → occurrences importMarker (createAll U pkgName appName names root) = 0) ∧
    occurrences importMarker (createAll U pkgName appName names root) ≤ 1 := by
  rw [occurrences_import_createAll hU hlit, hone]
  constructor
  · intro hne
    have := List.length_pos.mpr hne
    omega
  · omega

/-- C3, an instance: two commands on a root content with one import marker. -/
theorem import_marker_consumed_witness :
    asciiTables.TitleSound ∧
    occurrences importMarker (lit "import (\n\t//+cobra:commandsImport\n)\n") = 1 ∧
    occurrences importMarker (importLiteral (lit "example.com/demo") (lit "demo")) = 0 ∧
    ([lit "serve", lit "status"] ≠ [] →
      occurrences importMarker
        (createAll asciiTables (lit "example.com/demo") (lit "demo")
          [lit "serve", lit "status"] (lit "import (\n\t//+cobra:commandsImport\n)\n")) = 0) ∧
    occurrences importMarker
        (createAll asciiTables (lit "example.com/demo") (lit "demo")
          [lit "serve", lit "status"] (lit "import (\n\t//+cobra:commandsImport\n)\n")) ≤ 1 :=
  ⟨asciiTables_sound, by decide, by decide,
    import_marker_consumed asciiTables asciiTables_sound (lit "example.com/demo") (lit "demo")
      (lit "import (\n\t//+cobra:commandsImport\n)\n") [lit "serve", lit "status"]
      (by decide) (by decide)⟩

/-- C3 as stated fails: with application name `/+cobra:commandsImport`, which contains
neither marker, the import literal contains the import marker, so the marker still occurs
after the first call. -/
theorem import_marker_consumed_counterexample :
    occurrences importMarker (lit "example.com/demo") = 0 ∧
    occurrences subcommandsMarker (lit "example.com/demo") = 0 ∧
    occurrences importMarker (lit "/+cobra:commandsImport") = 0 ∧
    occurrences subcommandsMarker (lit "/+cobra:commandsImport") = 0 ∧
    occurrences importMarker importMarker = 1 ∧
    occurrences importMarker
      (createAll asciiTables (lit "example.com/demo") (lit "/+cobra:commandsImport")
        [lit "serve"] importMarker) = 1 ∧
    occurrences importMarker
      (createAll asciiTables (lit "example.com/demo") (lit "/+cobra:commandsImport")
        [lit "serve"] importMarker) ≠ 0 := by
  decide

/-- C4: on `pre ++ marker ++ post` with no import marker in `pre`, the import step gives
`pre ++ literal ++ post`, whatever `post` holds; on a content without import marker the
step changes nothing (it has no error result); and when neither marker is present a
`Command.Create` that returns has written back to the root file the content it read. -/
theorem import_injection (pkgName appName : Text) :
    (∀ pre post, ¬ importMarker <:+: pre →
      importStep pkgName appName (pre ++ importMarker ++ post) =
        pre ++ importLiteral pkgName appName ++ post) ∧
    (∀ root, ¬ importMarker <:+: root → importStep pkgName appName root = root) ∧
    (∀ U cmdName root, ¬ importMarker <:+: root → ¬ subcommandsMarker <:+: root →
      injectRoot U pkgName appName cmdName root = root) ∧
    (∀ U (c : Command) (fs : FS) root, os.ReadFile fs c.Project.rootPath = some root →
      ¬ importMarker <:+: root → ¬ subcommandsMarker <:+: root →
      (c.Create U fs).2 = Outcome.returned →
      (c.Create U fs).1 c.Project.rootPath = some (Node.file root)) := by
  have key : ∀ (pk ap : Text) U cmdName root, ¬ importMarker <:+: root →
      ¬ subcommandsMarker <:+: root → injectRoot U pk ap cmdName root = root := by
    intro pk ap U cmdName root h1 h2
    unfold injectRoot registrationStep
    rw [importStep_absent pk ap ((occurrences_eq_zero_iff _ _).mpr h1),
      Replace1_absent _ ((occurrences_eq_zero_iff _ _).mpr h2)]
  refine ⟨fun pre post h => ?_, fun root h => ?_, key pkgName appName, ?_⟩
  · exact importStep_at pkgName appName post ((occurrences_eq_zero_iff _ _).mpr h)
  · exact importStep_absent pkgName appName ((occurrences_eq_zero_iff _ _).mpr h)
  · intro U c fs root hr h1 h2 hret
    obtain ⟨root1, hr1, hw⟩ := Command.Create_returned U c fs hret
    rw [hr] at hr1
    cases hr1
    rw [hw, key _ _ U c.CmdName root h1 h2]

/-- C4, an instance: the import step on a content with two import markers, and
`Command.Create` for `serve` on a root file that holds neither marker. -/
theorem import_injection_witness :
    ¬ importMarker <:+: lit "import (\n\t" ∧
    importStep (lit "example.com/demo") (lit "demo")
        (lit "import (\n\t" ++ importMarker ++ lit "\n\t//+cobra:commandsImport\n)") =
      lit "import (\n\t" ++ importLiteral (lit "example.com/demo") (lit "demo") ++
        lit "\n\t//+cobra:commandsImport\n)" ∧
    os.ReadFile editedFS serveCommand.Project.rootPath = some (lit "package demo\n") ∧
    ¬ importMarker <:+: lit "package demo\n" ∧
    ¬ subcommandsMarker <:+: lit "package demo\n" ∧
    (serveCommand.Create asciiTables editedFS).2 = Outcome.returned ∧
    (serveCommand.Create asciiTables editedFS).1 serveCommand.Project.rootPath =
      some (Node.file (lit "package demo\n")) :=
  ⟨(occurrences_eq_zero_iff _ _).mp (by decide),
    (import_injection (lit "example.com/demo") (lit "demo")).1 (lit "import (\n\t")
      (lit "\n\t//+cobra:commandsImport\n)") ((occurrences_eq_zero_iff _ _).mp (by decide)),
    by decide,
    (occurrences_eq_zero_iff _ _).mp (by decide),
    (occurrences_eq_zero_iff _ _).mp (by decide), by decide,
    (import_injection (lit "example.com/demo") (lit "demo")).2.2.2 asciiTables serveCommand
      editedFS (lit "package demo\n") (by decide)
      ((occurrences_eq_zero_iff _ _).mp (by decide))
      ((occurrences_eq_zero_iff _ _).mp (by decide)) (by decide)⟩

/-- C6: when the root file does not exist, `Command.Create` returns an error and leaves the
file system as it was. -/
theorem command_create_missing_root (U : UnicodeTables) (c : Command) (fs : FS)
    (h : fs c.Project.rootPath = none) : c.Create U fs = (fs, Outcome.failed) := by
  unfold Command.Create os.ReadFile
  simp [h]

/-- C6, an instance: `serve` on a project directory that was never initialized. -/
theorem command_create_missing_root_witness :
    demoFS serveCommand.Project.rootPath = none ∧
    serveCommand.Create asciiTables demoFS = (demoFS, Outcome.failed) :=
  ⟨by decide, command_create_missing_root asciiTables serveCommand demoFS (by decide)⟩

/-- C7: when the root file exists, a `Project.Create` that returns leaves its content as it
was, and `main.go` holds the freshly rendered entry point, whatever it held before. -/
theorem project_create_keeps_root (E : Text → RenderResult) (p : Project) (fs : FS)
    (content : Text) (hroot : fs p.rootPath = some (Node.file content))
    (hret : (p.Create E fs).2 = Outcome.returned) :
    (p.Create E fs).1 p.rootPath = some (Node.file content) ∧
    (p.Create E fs).1 p.mainPath = some (Node.file (renderMain p)) := by
  rcases Project.Create_cases E p fs with (h | h) | ⟨fs5, he, hm, hr⟩
  · rw [h] at hret; exact Outcome.noConfusion hret
  · rw [h] at hret; exact Outcome.noConfusion hret
  · rw [he]
    have hf := (Project.createLicenseFile_spec E p fs5).1
    rw [hf _ (Ne.symm p.licensePath_ne_rootPath), hf _ (Ne.symm p.licensePath_ne_mainPath)]
    exact ⟨hr content hroot, hm⟩

/-- C7, an instance: a second initialization of the sample project after its files were
edited. -/
theorem project_create_keeps_root_witness :
    editedFS demoProject.rootPath = some (Node.file (lit "package demo\n")) ∧
    (demoProject.Create plainEngine editedFS).2 = Outcome.returned ∧
    (demoProject.Create plainEngine editedFS).1 demoProject.rootPath =
      some (Node.file (lit "package demo\n")) ∧
    (demoProject.Create plainEngine editedFS).1 demoProject.mainPath =
      some (Node.file (renderMain demoProject)) :=
  ⟨by decide, by decide,
    project_create_keeps_root plainEngine demoProject editedFS (lit "package demo\n")
      (by decide) (by decide)⟩

/-- C9 (amended): a license template that fails leaves `LICENSE` created or truncated, since
the file is opened before the template is parsed: when `Project.Create` panics on a parse
error `LICENSE` is empty, and in `createLicenseFile` a parse error leaves it empty and an
execution error leaves in it the output written before the error. -/
theorem license_failure_truncates (E : Text → RenderResult) (p : Project) (fs : FS) :
    ((p.Create E fs).2 = Outcome.panicked →
      E p.Legal.Text = RenderResult.parseError ∧
        (p.Create E fs).1 p.licensePath = some (Node.file [])) ∧
    (∀ fs1, os.Create fs p.licensePath = some fs1 →
      (E p.Legal.Text = RenderResult.parseError →
        (p.createLicenseFile E fs).2 = Outcome.panicked ∧
          (p.createLicenseFile E fs).1 p.licensePath = some (Node.file [])) ∧
      (∀ written, E p.Legal.Text = RenderResult.execError written →
        (p.createLicenseFile E fs).2 = Outcome.failed ∧
          (p.createLicenseFile E fs).1 p.licensePath = some (Node.file written))) := by
  constructor
  · intro hp
    rcases Project.Create_cases E p fs with (h | h) | ⟨fs5, he, -, -⟩
    · rw [h] at hp; exact Outcome.noConfusion hp
    · rw [h] at hp; exact Outcome.noConfusion hp
    · rw [he] at hp ⊢
      exact Project.createLicenseFile_panicked E p fs5 hp
  · intro fs1 hc
    have e1 := os.Create_eq hc
    subst e1
    constructor
    · intro hE
      unfold Project.createLicenseFile
      simp only [hc, hE]
      exact ⟨trivial, FS.set_same _ _ _⟩
    · intro written hE
      unfold Project.createLicenseFile
      simp only [hc, hE]
      exact ⟨trivial, FS.set_same _ _ _⟩

/-- C9, an instance: the sample project with a license text that does not parse. -/
theorem license_failure_truncates_witness :
    (demoProject.Create brokenEngine editedFS).2 = Outcome.panicked ∧
    brokenEngine demoProject.Legal.Text = RenderResult.parseError ∧
    (demoProject.Create brokenEngine editedFS).1 demoProject.licensePath =
      some (Node.file []) :=
  ⟨by decide, (license_failure_truncates brokenEngine demoProject editedFS).1 (by decide)⟩

/-- C9 as stated fails: with a license text that does not parse, `Project.Create` panics and
the `LICENSE` file, which held the user's text before the call, is empty after it. -/
theorem license_failure_counterexample :
    demoFS demoProject.licensePath = some (Node.file (lit "my own terms")) ∧
    (demoProject.Create brokenEngine demoFS).2 = Outcome.panicked ∧
    (demoProject.Create brokenEngine demoFS).1 demoProject.licensePath = some (Node.file []) ∧
    (demoProject.Create brokenEngine demoFS).1 demoProject.licensePath ≠
      demoFS demoProject.licensePath := by
  decide

/-- C10 (amended): `LICENSE` is written anew by every run: when `Project.Create` returns,
`LICENSE` holds the rendered license text, whatever it held before. -/
theorem license_always_rewritten (E : Text → RenderResult) (p : Project) (fs : FS)
    (hret : (p.Create E fs).2 = Outcome.returned) :
    ∃ out, E p.Legal.Text = RenderResult.done out ∧
      (p.Create E fs).1 p.licensePath = some (Node.file out) := by
  rcases Project.Create_cases E p fs with (h | h) | ⟨fs5, he, -, -⟩
  · rw [h] at hret; exact Outcome.noConfusion hret
  · rw [h] at hret; exact Outcome.noConfusion hret
  · rw [he] at hret ⊢
    exact (Project.createLicenseFile_spec E p fs5).2 hret

/-- C10, an instance: a second initialization of the sample project. -/
theorem license_always_rewritten_witness :
    (demoProject.Create plainEngine editedFS).2 = Outcome.returned ∧
    ∃ out, plainEngine demoProject.Legal.Text = RenderResult.done out ∧
      (demoProject.Create plainEngine editedFS).1 demoProject.licensePath =
        some (Node.file out) :=
  ⟨by decide, license_always_rewritten plainEngine demoProject editedFS (by decide)⟩

/-- C10 as stated fails: `Project.Create` on a project directory whose `LICENSE` holds the
user's text returns with `LICENSE` holding the rendered license text instead. -/
theorem license_kept_counterexample :
    demoFS demoProject.licensePath = some (Node.file (lit "my own terms")) ∧
    (demoProject.Create plainEngine demoFS).2 = Outcome.returned ∧
    (demoProject.Create plainEngine demoFS).1 demoProject.licensePath =
      some (Node.file (lit "MIT License")) ∧
    (demoProject.Create plainEngine demoFS).1 demoProject.licensePath ≠
      demoFS demoProject.licensePath := by
  decide

/-- C5: one `Command.Create` call that returns leaves two outputs that agree on the builder
name.  The subcommand file (unless its path is the root file, which a name without slash
excludes) holds the rendered template, which declares `func Build<T>Cmd()`; the root file
holds the content read, after the import step, with its first registration marker replaced
by `rootCmd.AddCommand(commands.Build<T>Cmd())`, a newline, a tab and the marker (or
unchanged when it has no marker).  In both `T` is the `strings.Title` of the command name:
rune by rune the name itself, except that a rune which follows a separator (or starts the
name) is mapped to title case; for `foo` both name `BuildFooCmd`. -/
theorem builder_name_agreement (U : UnicodeTables) (c : Command) (fs : FS)
    (hret : (c.Create U fs).2 = Outcome.returned) :
    (∃ A B,
      renderSub U c =
        A ++ lit "func Build" ++ Title U c.CmdName ++ lit "Cmd() *cobra.Command \x7b\n" ++ B ∧
      (c.cmdPath ≠ c.Project.rootPath →
        (c.Create U fs).1 c.cmdPath =
          some (Node.file
            (A ++ lit "func Build" ++ Title U c.CmdName ++ lit "Cmd() *cobra.Command \x7b\n" ++
              B)))) ∧
    (47 ∉ c.CmdName → c.cmdPath ≠ c.Project.rootPath) ∧
    (∃ root, os.ReadFile fs c.Project.rootPath = some root ∧
      ((occurrences subcommandsMarker
            (importStep c.Project.PkgName c.Project.AppName root) = 0 ∧
          (c.Create U fs).1 c.Project.rootPath =
            some (Node.file (importStep c.Project.PkgName c.Project.AppName root))) ∨
        ∃ A B, importStep c.Project.PkgName c.Project.AppName root =
            A ++ subcommandsMarker ++ B ∧
          occurrences subcommandsMarker A = 0 ∧
          (c.Create U fs).1 c.Project.rootPath =
            some (Node.file
              (A ++ lit "rootCmd.AddCommand(commands.Build" ++ Title U c.CmdName ++
                lit "Cmd())" ++ lit "\n\t" ++ subcommandsMarker ++ B)))) ∧
    (∀ i, (Title U c.CmdName)[i]? =
      (c.CmdName[i]?).map fun r =>
        if isSeparator U (if i = 0 then 32 else c.CmdName.getD (i - 1) 0) then ToTitle U r
        else r) ∧
    (c.CmdName = lit "foo" →
      lit "func Build" ++ Title U c.CmdName ++ lit "Cmd()" = lit "func BuildFooCmd()" ∧
      lit "rootCmd.AddCommand(commands.Build" ++ Title U c.CmdName ++ lit "Cmd())" =
        lit "rootCmd.AddCommand(commands.BuildFooCmd())") := by
  obtain ⟨root, hr, hw⟩ := Command.Create_returned U c fs hret
  refine ⟨⟨lit "/*\n" ++ c.Project.Copyright ++ lit "\n" ++ c.Project.Legal.Header ++
      subImports ++ Title U c.CmdName ++ lit "Cmd represents the " ++ c.CmdName ++
      lit " command\n",
    lit "\tcmd := &cobra.Command\x7b\n" ++ lit "\t\tUse:   \"" ++ c.CmdName ++ subCommand ++
      c.CmdName ++ (lit " called\")\n" ++ lit "\t\t\x7d,\n" ++ lit "\t\x7d\n" ++
        lit "\treturn cmd\n" ++ lit "\x7d\n"), ?_, ?_⟩,
    Command.cmdPath_ne_rootPath c, ⟨root, hr, ?_⟩, titleFrom_getElem? U 32 c.CmdName, ?_⟩
  · simp only [renderSub, List.append_assoc]
  · intro hne
    rw [Command.Create_returned_sub U c fs hret hne]
    simp only [renderSub, List.append_assoc]
  · rcases Replace1_cases subcommandsMarker (registrationReplacement U c.CmdName)
        subcommandsMarker_ne_nil (importStep c.Project.PkgName c.Project.AppName root) with
      ⟨h0, h1⟩ | ⟨A, B, hs, h0, -⟩
    · left
      refine ⟨h0, ?_⟩
      rw [hw]
      unfold injectRoot registrationStep
      rw [h1]
    · right
      refine ⟨A, B, hs, h0, ?_⟩
      rw [hw]
      unfold injectRoot
      rw [hs, registrationStep_at U c.CmdName B h0, registrationLine_eq]
      simp [registration]
  · intro hfoo
    have ht : Title U (lit "foo") = lit "Foo" := by
      simp [Title, titleFrom, isSeparator, ToTitle, lit]
    rw [hfoo, ht]
    exact ⟨by decide, by decide⟩

/-- C5, an instance: the command `foo` added to the freshly initialized sample project
returns; the file of the command declares `func BuildFooCmd()` and the root file calls
`commands.BuildFooCmd()` in front of the marker. -/
theorem builder_name_agreement_witness :
    ((fooCommand demoProject).Create asciiTables freshFS).2 = Outcome.returned ∧
    47 ∉ (fooCommand demoProject).CmdName ∧
    (∃ A B, ((fooCommand demoProject).Create asciiTables freshFS).1
        (fooCommand demoProject).cmdPath =
      some (Node.file (A ++ lit "func BuildFooCmd()" ++ B))) ∧
    (∃ A B, ((fooCommand demoProject).Create asciiTables freshFS).1
        (fooCommand demoProject).Project.rootPath =
      some (Node.file
        (A ++ lit "rootCmd.AddCommand(commands.BuildFooCmd())" ++ lit "\n\t" ++
          subcommandsMarker ++ B))) := by
  obtain ⟨⟨A, B, -, hsub⟩, hne, ⟨root, hr, hroot⟩, -, hfoo⟩ :=
    builder_name_agreement asciiTables (fooCommand demoProject) freshFS (by decide)
  have hslash : 47 ∉ (fooCommand demoProject).CmdName := by decide
  obtain ⟨-, e2⟩ := hfoo rfl
  refine ⟨by decide, hslash, ⟨A, lit " *cobra.Command \x7b\n" ++ B, ?_⟩, ?_⟩
  · have k : lit "func Build" ++ Title asciiTables (fooCommand demoProject).CmdName ++
        lit "Cmd() *cobra.Command \x7b\n" =
        lit "func BuildFooCmd()" ++ lit " *cobra.Command \x7b\n" := by decide
    have k2 : A ++ lit "func Build" ++ Title asciiTables (fooCommand demoProject).CmdName ++
        lit "Cmd() *cobra.Command \x7b\n" ++ B =
        A ++ lit "func BuildFooCmd()" ++ (lit " *cobra.Command \x7b\n" ++ B) :=
      calc A ++ lit "func Build" ++ Title asciiTables (fooCommand demoProject).CmdName ++
              lit "Cmd() *cobra.Command \x7b\n" ++ B
          = A ++ (lit "func Build" ++ Title asciiTables (fooCommand demoProject).CmdName ++
              lit "Cmd() *cobra.Command \x7b\n") ++ B := by simp only [List.append_assoc]
        _ = A ++ (lit "func BuildFooCmd()" ++ lit " *cobra.Command \x7b\n") ++ B :=
            congrArg (fun t => A ++ t ++ B) k
        _ = A ++ lit "func BuildFooCmd()" ++ (lit " *cobra.Command \x7b\n" ++ B) := by
            simp only [List.append_assoc]
    exact (hsub (hne hslash)).trans (congrArg (fun t => some (Node.file t)) k2)
  · have hr1 : os.ReadFile freshFS (fooCommand demoProject).Project.rootPath =
        some (renderRoot demoProject) := rfl
    have hroot_eq : root = renderRoot demoProject := Option.some.inj (hr.symm.trans hr1)
    rcases hroot with ⟨h0, -⟩ | ⟨A1, B1, -, -, hw⟩
    · have hlit : occurrences subcommandsMarker
          (importLiteral (fooCommand demoProject).Project.PkgName
            (fooCommand demoProject).Project.AppName) = 0 := by decide
      have hone : occurrences subcommandsMarker (renderRoot demoProject) = 1 := by decide
      rw [occurrences_subcommands_importStep hlit, hroot_eq, hone] at h0
      exact absurd h0 (by decide)
    · have k2 : A1 ++ lit "rootCmd.AddCommand(commands.Build" ++
          Title asciiTables (fooCommand demoProject).CmdName ++ lit "Cmd())" ++ lit "\n\t" ++
            subcommandsMarker ++ B1 =
          A1 ++ lit "rootCmd.AddCommand(commands.BuildFooCmd())" ++ lit "\n\t" ++
            subcommandsMarker ++ B1 :=
        calc A1 ++ lit "rootCmd.AddCommand(commands.Build" ++
              Title asciiTables (fooCommand demoProject).CmdName ++ lit "Cmd())" ++ lit "\n\t" ++
                subcommandsMarker ++ B1
            = A1 ++ (lit "rootCmd.AddCommand(commands.Build" ++
              Title asciiTables (fooCommand demoProject).CmdName ++ lit "Cmd())") ++
                lit "\n\t" ++ subcommandsMarker ++ B1 := by simp only [List.append_assoc]
          _ = A1 ++ lit "rootCmd.AddCommand(commands.BuildFooCmd())" ++ lit "\n\t" ++
                subcommandsMarker ++ B1 :=
              congrArg (fun t => A1 ++ t ++ lit "\n\t" ++ subcommandsMarker ++ B1) e2
      exact ⟨A1, B1, hw.trans (congrArg (fun t => some (Node.file t)) k2)⟩

/-- C8: when the copyright line, the license header and the application name contain
neither marker, the rendered root template holds the import marker exactly once and the
registration marker exactly once, with or without Viper; these are the very texts that
`Command.Create` searches for. -/
theorem fresh_root_has_each_marker_once (p : Project)
    (hC1 : ¬ importMarker <:+: p.Copyright) (hC2 : ¬ subcommandsMarker <:+: p.Copyright)
    (hH1 : ¬ importMarker <:+: p.Legal.Header)
    (hH2 : ¬ subcommandsMarker <:+: p.Legal.Header)
    (hA1 : ¬ importMarker <:+: p.AppName) (hA2 : ¬ subcommandsMarker <:+: p.AppName) :
    occurrences importMarker (renderRoot p) = 1 ∧
    occurrences subcommandsMarker (renderRoot p) = 1 := by
  rw [← occurrences_eq_zero_iff] at hC1 hC2 hH1 hH2 hA1 hA2
  rw [renderRoot_weave]
  constructor
  · rw [occurrences_weave importMarker_ne_nil _ _ (by decide)]
    · cases p.Viper <;> simp only [if_true, if_false, Bool.false_eq_true, List.cons_append,
        List.nil_append, List.map_cons, List.map_nil, List.sum_cons, List.sum_nil] <;> decide
    · cases p.Viper <;> simp only [if_true, if_false, Bool.false_eq_true, List.cons_append,
        List.nil_append, List.forall_mem_cons, List.not_mem_nil, false_implies, implies_true,
        and_true, hC1, hH1, hA1, true_and] <;> decide
  · rw [occurrences_weave subcommandsMarker_ne_nil _ _ (by decide)]
    · cases p.Viper <;> simp only [if_true, if_false, Bool.false_eq_true, List.cons_append,
        List.nil_append, List.map_cons, List.map_nil, List.sum_cons, List.sum_nil] <;> decide
    · cases p.Viper <;> simp only [if_true, if_false, Bool.false_eq_true, List.cons_append,
        List.nil_append, List.forall_mem_cons, List.not_mem_nil, false_implies, implies_true,
        and_true, hC2, hH2, hA2, true_and] <;> decide

/-- C8, an instance: the sample project, whose root file is rendered without Viper. -/
theorem fresh_root_has_each_marker_once_witness :
    ¬ importMarker <:+: demoProject.Copyright ∧
    ¬ subcommandsMarker <:+: demoProject.Copyright ∧
    ¬ importMarker <:+: demoProject.Legal.Header ∧
    ¬ subcommandsMarker <:+: demoProject.Legal.Header ∧
    ¬ importMarker <:+: demoProject.AppName ∧
    ¬ subcommandsMarker <:+: demoProject.AppName ∧
    occurrences importMarker (renderRoot demoProject) = 1 ∧
    occurrences subcommandsMarker (renderRoot demoProject) = 1 :=
  ⟨(occurrences_eq_zero_iff _ _).mp (by decide), (occurrences_eq_zero_iff _ _).mp (by decide),
    (occurrences_eq_zero_iff _ _).mp (by decide), (occurrences_eq_zero_iff _ _).mp (by decide),
    (occurrences_eq_zero_iff _ _).mp (by decide), (occurrences_eq_zero_iff _ _).mp (by decide),
    fresh_root_has_each_marker_once demoProject
      ((occurrences_eq_zero_iff _ _).mp (by decide))
      ((occurrences_eq_zero_iff _ _).mp (by decide))
      ((occurrences_eq_zero_iff _ _).mp (by decide))
      ((occurrences_eq_zero_iff _ _).mp (by decide))
      ((occurrences_eq_zero_iff _ _).mp (by decide))
      ((occurrences_eq_zero_iff _ _).mp (by decide))⟩

end CobraCli
